import Mathlib

/-!
Verification of the SSKR (Sharded Secret Key Reconstruction) core:
a shallow embedding of the Rust sources (`spec.rs`, `secret.rs`, `share.rs`,
`encoding.rs`) into Lean, together with theorems about the embedded program.

Bytes are modelled as `Nat` (with `b < 256` hypotheses where the `u8` type
matters).  On byte-sized values the Rust bit operations coincide with plain
arithmetic: `x >> 4 = x / 16`, `x & 0xf = x % 16` (true for every `Nat`,
since `& 0xf` masks to the low four bits), and `(hi << 4) | lo = hi * 16 + lo`
whenever `lo < 16`; `(b0 << 8) | b1 = b0 * 256 + b1` whenever `b1 < 256`.

The single-level Shamir primitive (`bc_shamir::split_secret` /
`recover_secret`) is an external crate, not part of this repository's
sources; following the design document it is modelled abstractly as a
`ShamirPrim` together with the contract `ShamirContract` it is documented
to satisfy (splitting yields `shareCount` shares of the secret's length,
and recovering any quorum-sized subset of them returns the secret).
-/

namespace SSKR

/-- Modelled from the spec: `bc_shamir::MAX_SHARE_COUNT`, the structural
ceiling of 16 shares (and 16 groups) imposed by the 4-bit wire fields. -/
def MAX_SHARE_COUNT : Nat := 16

/-- Modelled from the spec: `bc_shamir::MIN_SECRET_LEN` (16 bytes), the
minimum secret length accepted by the external splitting primitive. -/
def MIN_SECRET_LEN : Nat := 16

/-- Modelled from the spec: `bc_shamir::MAX_SECRET_LEN` (32 bytes), the
maximum secret length accepted by the external splitting primitive. -/
def MAX_SECRET_LEN : Nat := 32

/-- `METADATA_SIZE_BYTES` from `lib.rs`. -/
def METADATA_SIZE_BYTES : Nat := 5

/-- The error enum of `error.rs`.  The `ShamirError` payload (the external
crate's error value) is dropped: only the kind matters to the claims. -/
inductive SSKRError where
  | DuplicateMemberIndex
  | GroupCountInvalid
  | GroupThresholdInvalid
  | MemberCountInvalid
  | MemberThresholdInvalid
  | NotEnoughGroups
  | SecretLengthNotEven
  | SecretTooLong
  | SecretTooShort
  | ShareLengthInvalid
  | ShareReservedBitsInvalid
  | SharesEmpty
  | ShareSetInvalid
  | ShamirError
deriving DecidableEq, Repr

deriving instance DecidableEq for Except

/-- `Secret::new` from `secret.rs`: length checks, then the byte buffer
itself.  (The Rust `Secret` is a validated newtype over `Vec<u8>`; the model
returns the validated byte list.) -/
def secretNew (data : List Nat) : Except SSKRError (List Nat) :=
  if data.length < MIN_SECRET_LEN then .error .SecretTooShort
  else if data.length > MAX_SECRET_LEN then .error .SecretTooLong
  else if data.length % 2 ≠ 0 then .error .SecretLengthNotEven
  else .ok data

/-- The lengths `Secret::new` accepts. -/
def SecretLenValid (n : Nat) : Prop :=
  MIN_SECRET_LEN ≤ n ∧ n ≤ MAX_SECRET_LEN ∧ n % 2 = 0

instance (n : Nat) : Decidable (SecretLenValid n) := by
  unfold SecretLenValid; infer_instance

/-- `GroupSpec` from `spec.rs`. -/
structure GroupSpec where
  member_threshold : Nat
  member_count : Nat
deriving DecidableEq, Repr

/-- `GroupSpec::new` from `spec.rs` (checks in source order). -/
def GroupSpec.new (member_threshold member_count : Nat) :
    Except SSKRError GroupSpec :=
  if member_count = 0 then .error .MemberCountInvalid
  else if member_count > MAX_SHARE_COUNT then .error .MemberCountInvalid
  else if member_threshold > member_count then .error .MemberThresholdInvalid
  else .ok ⟨member_threshold, member_count⟩

/-- `Spec` from `spec.rs`. -/
structure Spec where
  group_threshold : Nat
  groups : List GroupSpec
deriving DecidableEq, Repr

/-- `Spec::new` from `spec.rs` (checks in source order). -/
def Spec.new (group_threshold : Nat) (groups : List GroupSpec) :
    Except SSKRError Spec :=
  if group_threshold = 0 then .error .GroupThresholdInvalid
  else if group_threshold > groups.length then .error .GroupThresholdInvalid
  else if groups.length > MAX_SHARE_COUNT then .error .GroupCountInvalid
  else .ok ⟨group_threshold, groups⟩

/-- `Spec::group_count`. -/
def Spec.group_count (s : Spec) : Nat := s.groups.length

/-- The validity invariants the design document states for `Spec` /
`GroupSpec` (§3): `1 ≤ groupThreshold ≤ groupCount ≤ MAX_SHARE_COUNT` and,
for every group, `1 ≤ memberThreshold ≤ memberCount ≤ MAX_SHARE_COUNT`. -/
def SpecValid (s : Spec) : Prop :=
  1 ≤ s.group_threshold ∧ s.group_threshold ≤ s.groups.length ∧
    s.groups.length ≤ MAX_SHARE_COUNT ∧
    ∀ g ∈ s.groups, 1 ≤ g.member_threshold ∧
      g.member_threshold ≤ g.member_count ∧ g.member_count ≤ MAX_SHARE_COUNT

instance (s : Spec) : Decidable (SpecValid s) := by
  unfold SpecValid; infer_instance

/-- `SSKRShare` from `share.rs`. -/
structure SSKRShare where
  identifier : Nat
  group_index : Nat
  group_threshold : Nat
  group_count : Nat
  member_index : Nat
  member_threshold : Nat
  value : List Nat
deriving DecidableEq, Repr

/-- `serialize_share` from `encoding.rs`: five packed metadata bytes
followed by the value.  `x & 0xf` is written `x % 16`, `<< 4` as `* 16`,
`id >> 8` as `/ 256`, `id & 0xff` as `% 256` (see the header comment). -/
def serialize_share (s : SSKRShare) : List Nat :=
  s.identifier / 256 ::
  s.identifier % 256 ::
  (((s.group_threshold - 1) % 16) * 16 + (s.group_count - 1) % 16) ::
  ((s.group_index % 16) * 16 + (s.member_threshold - 1) % 16) ::
  (s.member_index % 16) ::
  s.value

/-- `deserialize_share` from `encoding.rs`.  The pattern match plays the
role of the `source.len() < METADATA_SIZE_BYTES` check; nibble extraction
`b >> 4` / `b & 0xf` is written `b / 16` / `b % 16`. -/
def deserialize_share : List Nat → Except SSKRError SSKRShare
  | b0 :: b1 :: b2 :: b3 :: b4 :: rest =>
    let group_threshold := b2 / 16 + 1
    let group_count := b2 % 16 + 1
    if group_threshold > group_count then .error .GroupThresholdInvalid
    else
      let identifier := b0 * 256 + b1
      let group_index := b3 / 16
      let member_threshold := b3 % 16 + 1
      if b4 / 16 ≠ 0 then .error .ShareReservedBitsInvalid
      else
        match secretNew rest with
        | .error e => .error e
        | .ok v =>
          .ok ⟨identifier, group_index, group_threshold, group_count,
               b4 % 16, member_threshold, v⟩
  | _ => .error .ShareLengthInvalid

/-- The `Group` accumulator struct of `combine_shares` in `encoding.rs`. -/
structure Group where
  group_index : Nat
  member_threshold : Nat
  member_indexes : List Nat
  member_shares : List (List Nat)
deriving DecidableEq, Repr

/-- One pass of the `for group in groups.iter_mut()` scan of
`combine_shares` (`encoding.rs` lines 221-238) for a single incoming share:
walks every bucket, and on an index match checks the member threshold,
rejects a duplicate member index, and appends the share while the bucket
holds fewer than `member_threshold` entries.  Returns the updated buckets
and the `group_found` flag. -/
def bucketShare (s : SSKRShare) : List Group →
    Except SSKRError (List Group × Bool)
  | [] => .ok ([], false)
  | g :: gs =>
    if s.group_index = g.group_index then
      if s.member_threshold ≠ g.member_threshold then
        .error .MemberThresholdInvalid
      else if s.member_index ∈ g.member_indexes then
        .error .DuplicateMemberIndex
      else
        let g' : Group :=
          if g.member_indexes.length < g.member_threshold then
            ⟨g.group_index, g.member_threshold,
             g.member_indexes ++ [s.member_index],
             g.member_shares ++ [s.value]⟩
          else g
        match bucketShare s gs with
        | .error e => .error e
        | .ok (gs', _) => .ok (g' :: gs', true)
    else
      match bucketShare s gs with
      | .error e => .error e
      | .ok (gs', found) => .ok (g :: gs', found)

/-- The extension of a bucket by one share, as performed in the matched
branch of the scan: append while below threshold, ignore otherwise. -/
def extendBucket (b : Group) (s : SSKRShare) : Group :=
  if b.member_indexes.length < b.member_threshold then
    ⟨b.group_index, b.member_threshold,
     b.member_indexes ++ [s.member_index],
     b.member_shares ++ [s.value]⟩
  else b

/-- The whole bucketing step for one share (`encoding.rs` lines 220-246):
scan the buckets, and if no bucket matched, open a new one holding the
share (`Group::new` plus the two pushes). -/
def insertShare (gs : List Group) (s : SSKRShare) :
    Except SSKRError (List Group) :=
  match bucketShare s gs with
  | .error e => .error e
  | .ok (gs', found) =>
    if found then .ok gs'
    else .ok (gs' ++ [⟨s.group_index, s.member_threshold,
                       [s.member_index], [s.value]⟩])

/-- The common metadata fixed by the first share:
(identifier, group_threshold, group_count, value length). -/
def shareMeta (s : SSKRShare) : Nat × Nat × Nat × Nat :=
  (s.identifier, s.group_threshold, s.group_count, s.value.length)

/-- The share loop of `combine_shares` (`encoding.rs` lines 202-247).
The source skips the metadata comparison for the first share, where it
holds trivially (the reference was just copied from that share), so the
uniform check is extensionally the same. -/
def combineLoop (ref : Nat × Nat × Nat × Nat) :
    List Group → List SSKRShare → Except SSKRError (List Group)
  | gs, [] => .ok gs
  | gs, s :: rest =>
    if shareMeta s ≠ ref then .error .ShareSetInvalid
    else
      match insertShare gs s with
      | .error e => .error e
      | .ok gs' => combineLoop ref gs' rest

/-- Abstract model of the external `bc_shamir` primitive: `split_secret`
(threshold, share count, secret, rng) and `recover_secret` (indexes,
shares).  The rng is a byte stream `Nat → Nat`; `split` returns the
advanced stream.  `none` models the crate returning `Err`, which
`encoding.rs` wraps as `SSKRError::ShamirError`. -/
structure ShamirPrim where
  split : Nat → Nat → List Nat → (Nat → Nat) →
    Option (List (List Nat)) × (Nat → Nat)
  recover : List Nat → List (List Nat) → Option (List Nat)

/-- The group-secret recovery loop of `combine_shares`
(`encoding.rs` lines 256-263): one `(group_index, recovered secret)` pair
per bucket, in bucket order. -/
def recoverGroupSecrets (prim : ShamirPrim) :
    List Group → Except SSKRError (List (Nat × List Nat))
  | [] => .ok []
  | g :: gs =>
    match prim.recover g.member_indexes g.member_shares with
    | none => .error .ShamirError
    | some sec =>
      match recoverGroupSecrets prim gs with
      | .error e => .error e
      | .ok rest => .ok ((g.group_index, sec) :: rest)

/-- `combine_shares` from `encoding.rs`: empty check, metadata reference
from the first share, the bucketing loop, the `NotEnoughGroups` quorum
check (`next_group` equals the number of buckets), then the two-level
recovery and the final `Secret::new`. -/
def combine_shares (prim : ShamirPrim) (shares : List SSKRShare) :
    Except SSKRError (List Nat) :=
  match shares with
  | [] => .error .SharesEmpty
  | s0 :: _ =>
    match combineLoop (shareMeta s0) [] shares with
    | .error e => .error e
    | .ok gs =>
      if gs.length < s0.group_threshold then .error .NotEnoughGroups
      else
        match recoverGroupSecrets prim gs with
        | .error e => .error e
        | .ok pairs =>
          match prim.recover (pairs.map Prod.fst) (pairs.map Prod.snd) with
          | none => .error .ShamirError
          | some master => secretNew master

/-- The deserialization loop of `sskr_combine` (`encoding.rs` lines
56-61): any failure aborts the whole call. -/
def deserializeAll : List (List Nat) → Except SSKRError (List SSKRShare)
  | [] => .ok []
  | x :: xs =>
    match deserialize_share x with
    | .error e => .error e
    | .ok s =>
      match deserializeAll xs with
      | .error e => .error e
      | .ok ss => .ok (s :: ss)

/-- `sskr_combine` from `encoding.rs`. -/
def sskr_combine (prim : ShamirPrim) (shares : List (List Nat)) :
    Except SSKRError (List Nat) :=
  match deserializeAll shares with
  | .error e => .error e
  | .ok ss => combine_shares prim ss

/-- The `Secret::new` validation pass over a split's outputs
(`encoding.rs` lines 151-152). -/
def secretNewAll : List (List Nat) → Except SSKRError (List (List Nat))
  | [] => .ok []
  | v :: vs =>
    match secretNew v with
    | .error e => .error e
    | .ok v' =>
      match secretNewAll vs with
      | .error e => .error e
      | .ok vs' => .ok (v' :: vs')

/-- The per-group body of `generate_shares` (`encoding.rs` lines 147-165):
split group `i`'s intermediate secret, validate each member secret, and
wrap each into an `SSKRShare` with its position as member index.  The rng
stream is threaded through the member splits in group order. -/
def genGroupLoop (prim : ShamirPrim) (ident gt gc : Nat)
    (gsecrets : List (List Nat)) :
    List GroupSpec → Nat → (Nat → Nat) →
    Except SSKRError (List (List SSKRShare))
  | [], _, _ => .ok []
  | g :: gl, i, rng =>
    match prim.split g.member_threshold g.member_count
        (gsecrets.getD i []) rng with
    | (none, _) => .error .ShamirError
    | (some raw, rng') =>
      match secretNewAll raw with
      | .error e => .error e
      | .ok msecrets =>
        match genGroupLoop prim ident gt gc gsecrets gl (i + 1) rng' with
        | .error e => .error e
        | .ok rest =>
          .ok ((msecrets.enum.map fun p =>
                ⟨ident, i, gt, gc, p.1, g.member_threshold, p.2⟩) :: rest)

/-- `generate_shares` from `encoding.rs`: two rng bytes form the big-endian
identifier, the top-level split produces one intermediate secret per group,
then each group is split member-wise. -/
def generate_shares (prim : ShamirPrim) (spec : Spec) (secret : List Nat)
    (rng : Nat → Nat) : Except SSKRError (List (List SSKRShare)) :=
  let ident := rng 0 * 256 + rng 1
  let rng1 : Nat → Nat := fun i => rng (i + 2)
  match prim.split spec.group_threshold spec.group_count secret rng1 with
  | (none, _) => .error .ShamirError
  | (some gsecrets, rng2) =>
    genGroupLoop prim ident spec.group_threshold spec.group_count
      gsecrets spec.groups 0 rng2

/-- `sskr_generate_using` from `encoding.rs`: generate, then serialize
every share, preserving the nesting. -/
def sskr_generate_using (prim : ShamirPrim) (spec : Spec)
    (secret : List Nat) (rng : Nat → Nat) :
    Except SSKRError (List (List (List Nat))) :=
  match generate_shares prim spec secret rng with
  | .error e => .error e
  | .ok gss => .ok (gss.map fun grp => grp.map serialize_share)

/-- Modelled from the spec: what recovery guarantees about one split's
output.  Any quorum-sized selection of (index, share) pairs with distinct
indexes, each pair taken from the split's output, recovers the secret. -/
def RecoversTo (prim : ShamirPrim) (t : Nat) (shares : List (List Nat))
    (secret : List Nat) : Prop :=
  ∀ pairs : List (Nat × List Nat),
    t ≤ pairs.length →
    pairs.Pairwise (fun a b => a.1 ≠ b.1) →
    (∀ p ∈ pairs, shares[p.1]? = some p.2) →
    prim.recover (pairs.map Prod.fst) (pairs.map Prod.snd) = some secret

/-- Modelled from the spec: the contract of the external `bc_shamir`
primitive (§1 and §4.3 of the design document).  On a valid call
(`1 ≤ threshold ≤ shareCount`, valid secret length) `split` succeeds,
yields `shareCount` shares, each of the secret's length, and `recover`
inverts it on every quorum of distinct-index shares. -/
def ShamirContract (prim : ShamirPrim) : Prop :=
  ∀ t n secret rng, 1 ≤ t → t ≤ n → n ≤ MAX_SHARE_COUNT →
    SecretLenValid secret.length →
    ∃ shares rng', prim.split t n secret rng = (some shares, rng') ∧
      shares.length = n ∧ (∀ s ∈ shares, s.length = secret.length) ∧
      RecoversTo prim t shares secret

/-- A share value of the concrete model primitive: the threshold (at most
16, so below 17) and the secret's first byte packed into the first byte
as `head * 17 + t`, so that `recover` can tell whether it was handed a
full quorum.  Model bytes are unbounded naturals, so the packing
preserves the length invariants. -/
def tagged (t : Nat) (s : List Nat) : List Nat :=
  (s.headD 0 * 17 + t) :: s.tail

/-- Recovery for the concrete model primitive: read the packed threshold
from the first share; if at least that many mutually consistent shares are
present, return the secret; otherwise return a deliberately perturbed
value of the same length (modelling interpolation through too few or
inconsistent points, which yields a wrong value rather than an error). -/
def tagRecover : List Nat → List (List Nat) → Option (List Nat)
  | _, [] => none
  | _, [] :: _ => none
  | _, (b :: rest) :: more =>
    if b % 17 ≤ more.length + 1 ∧
        (∀ x ∈ (b :: rest) :: more, x = b :: rest) then
      some (b / 17 :: rest)
    else
      some ((b / 17 + 1) :: rest)

/-- A concrete instance of the external primitive used for witnesses and
counterexamples: every share of a `(t, n)` split is `tagged t secret`, and
`tagRecover` undoes it on any consistent quorum. -/
def tagShamir : ShamirPrim where
  split := fun t n s rng => (some (List.replicate n (tagged t s)), rng)
  recover := fun idxs shs => tagRecover idxs shs

/-- Number of distinct values occurring in a list. -/
def distinctCount : List Nat → Nat
  | [] => 0
  | x :: xs => (if x ∈ xs then 0 else 1) + distinctCount xs

/-- The (groupIndex, memberIndex) keys of a share list. -/
def keyList (l : List SSKRShare) : List (Nat × Nat) :=
  l.map fun s => (s.group_index, s.member_index)

/-- The member threshold carried by the first share of group `g` in `l`
(0 if the group is absent): the reference threshold each bucket records. -/
def lookupMT (l : List SSKRShare) (g : Nat) : Nat :=
  match l.find? (fun s => s.group_index == g) with
  | some s => s.member_threshold
  | none => 0

/-- Default `SSKRShare`, used only as the default of `List.getD`. -/
def dfltShare : SSKRShare := ⟨0, 0, 0, 0, 0, 0, []⟩

/-- The nested share list `generate_shares` produces, expressed as a pure
function of the identifier, the common group metadata, and the per-group
member-split outputs: group `i` yields one share per member value, with
the member's position as its index. -/
def buildShares (ident gt gc : Nat) :
    List (GroupSpec × List (List Nat)) → Nat → List (List SSKRShare)
  | [], _ => []
  | (g, ms) :: rest, i =>
    (ms.enum.map fun p => ⟨ident, i, gt, gc, p.1, g.member_threshold, p.2⟩)
      :: buildShares ident gt gc rest (i + 1)

/-- The share sitting at position `p = (groupIndex, memberIndex)` of a
generated hierarchy with identifier `ident`, common group metadata
`(gt, gc)`, and per-group member-split outputs `msecs`. -/
def pickShare (ident gt gc : Nat) (spec : Spec)
    (msecs : List (List (List Nat))) (p : Nat × Nat) : SSKRShare :=
  ⟨ident, p.1, gt, gc, p.2,
   (spec.groups.getD p.1 ⟨0, 0⟩).member_threshold,
   (msecs.getD p.1 []).getD p.2 []⟩

/-- Invariant of the bucketing loop of `combine_shares`, relative to a
member-threshold assignment `mtOf`: after processing the shares `p`, the
bucket list `gs` has one bucket per distinct group index of `p` (with no
duplicate buckets), and each bucket holds exactly the first
`mtOf groupIndex` member indexes / share values of its group, in arrival
order — later shares of a full bucket were silently ignored. -/
structure BInv (mtOf : Nat → Nat) (p : List SSKRShare) (gs : List Group) :
    Prop where
  nodupIdx : (gs.map Group.group_index).Nodup
  mem_iff : ∀ g, g ∈ gs.map Group.group_index ↔
    g ∈ p.map SSKRShare.group_index
  mt_eq : ∀ b ∈ gs, b.member_threshold = mtOf b.group_index
  idx_eq : ∀ b ∈ gs, b.member_indexes =
    ((p.filter fun s => s.group_index == b.group_index).map
      SSKRShare.member_index).take (mtOf b.group_index)
  val_eq : ∀ b ∈ gs, b.member_shares =
    ((p.filter fun s => s.group_index == b.group_index).map
      SSKRShare.value).take (mtOf b.group_index)


end SSKR

namespace SSKR

/-! ### Basic facts about `secretNew` and the model primitive -/

theorem cons_headD_tail {l : List Nat} (h : l ≠ []) :
    l.headD 0 :: l.tail = l := by
  cases l with
  | nil => exact absurd rfl h
  | cons a t => rfl

theorem secretNew_ok {l : List Nat} (h : SecretLenValid l.length) :
    secretNew l = .ok l := by
  obtain ⟨h1, h2, h3⟩ := h
  simp [secretNew, Nat.not_lt.mpr h1, Nat.not_lt.mpr h2, h3]

theorem secretNew_ok_inv {l v : List Nat} (h : secretNew l = .ok v) :
    v = l ∧ SecretLenValid l.length := by
  unfold secretNew at h
  split at h
  · exact absurd h (by simp)
  · split at h
    · exact absurd h (by simp)
    · split at h
      · exact absurd h (by simp)
      · rename_i h1 h2 h3
        cases h
        exact ⟨rfl, Nat.not_lt.mp h1, Nat.not_lt.mp h2, by omega⟩

theorem tagged_length {t : Nat} {s : List Nat} (h : s ≠ []) :
    (tagged t s).length = s.length := by
  cases s with
  | nil => exact absurd rfl h
  | cons a l => simp [tagged]

theorem tagShamir_contract : ShamirContract tagShamir := by
  intro t n secret rng ht htn hn16 hlen
  have ht17 : t < 17 := by
    have : MAX_SHARE_COUNT = 16 := rfl
    omega
  have hne : secret ≠ [] := by
    intro h
    rw [h] at hlen
    obtain ⟨h1, -, -⟩ := hlen
    simp [MIN_SECRET_LEN] at h1
  refine ⟨List.replicate n (tagged t secret), rng, rfl, by simp, ?_, ?_⟩
  · intro s hs
    rw [List.eq_of_mem_replicate hs]
    exact tagged_length hne
  · intro pairs hlenp hpw hmemp
    have hall : ∀ p ∈ pairs, p.2 = tagged t secret := by
      intro p hp
      have := hmemp p hp
      have hmem : p.2 ∈ List.replicate n (tagged t secret) :=
        List.getElem?_mem this
      exact List.eq_of_mem_replicate hmem
    obtain ⟨q, qs, hq⟩ : ∃ q qs, pairs = q :: qs := by
      cases pairs with
      | nil => simp at hlenp; omega
      | cons q qs => exact ⟨q, qs, rfl⟩
    subst hq
    have hq2 : q.2 = tagged t secret := hall q (by simp)
    have hmod : (secret.headD 0 * 17 + t) % 17 = t := by omega
    have hdiv : (secret.headD 0 * 17 + t) / 17 = secret.headD 0 := by
      omega
    have hcond : (secret.headD 0 * 17 + t) % 17 ≤
        (List.map Prod.snd qs).length + 1 ∧
        ∀ x ∈ ((secret.headD 0 * 17 + t) :: secret.tail) ::
          List.map Prod.snd qs,
          x = (secret.headD 0 * 17 + t) :: secret.tail := by
      constructor
      · rw [hmod]
        simpa using hlenp
      · intro x hx
        rcases List.mem_cons.mp hx with h | h
        · exact h
        · simp only [List.mem_map] at h
          obtain ⟨p, hp, hpx⟩ := h
          rw [← hpx, hall p (List.mem_cons_of_mem _ hp), tagged]
    show tagRecover _ _ = _
    rw [List.map_cons, List.map_cons, hq2]
    show tagRecover _ (((secret.headD 0 * 17 + t) :: secret.tail) ::
      List.map Prod.snd qs) = _
    rw [tagRecover, if_pos hcond, hdiv]
    exact congrArg some (cons_headD_tail hne)

/-! ### The bucketing loop of `combine_shares` -/

theorem bucketShare_not_found {s : SSKRShare} {gs : List Group}
    (h : s.group_index ∉ gs.map Group.group_index) :
    bucketShare s gs = .ok (gs, false) := by
  induction gs with
  | nil => rfl
  | cons g tl ih =>
    have hne : s.group_index ≠ g.group_index := by
      intro he
      exact h (by simp [he])
    have htl : s.group_index ∉ tl.map Group.group_index := by
      intro hm
      exact h (by simp [List.mem_map] at hm ⊢; right; exact hm)
    rw [bucketShare, if_neg hne, ih htl]

theorem bucketShare_found {s : SSKRShare} {l1 l2 : List Group} {b : Group}
    (h1 : s.group_index ∉ l1.map Group.group_index)
    (h2 : s.group_index ∉ l2.map Group.group_index)
    (hb : s.group_index = b.group_index)
    (hmt : s.member_threshold = b.member_threshold)
    (hdup : s.member_index ∉ b.member_indexes) :
    bucketShare s (l1 ++ b :: l2) = .ok (l1 ++ extendBucket b s :: l2, true)
    := by
  induction l1 with
  | nil =>
    rw [List.nil_append, bucketShare, if_pos hb, if_neg (by simp [hmt]),
      if_neg hdup, bucketShare_not_found h2]
    rfl
  | cons g tl ih =>
    have hne : s.group_index ≠ g.group_index := by
      intro he
      exact h1 (by simp [he])
    have htl : s.group_index ∉ tl.map Group.group_index := by
      intro hm
      exact h1 (by simp [List.mem_map] at hm ⊢; right; exact hm)
    rw [List.cons_append, bucketShare, if_neg hne, ih htl]
    rfl

theorem insertShare_not_found {s : SSKRShare} {gs : List Group}
    (h : s.group_index ∉ gs.map Group.group_index) :
    insertShare gs s = .ok (gs ++ [⟨s.group_index, s.member_threshold,
      [s.member_index], [s.value]⟩]) := by
  rw [insertShare, bucketShare_not_found h]
  rfl

theorem insertShare_found {s : SSKRShare} {l1 l2 : List Group} {b : Group}
    (h1 : s.group_index ∉ l1.map Group.group_index)
    (h2 : s.group_index ∉ l2.map Group.group_index)
    (hb : s.group_index = b.group_index)
    (hmt : s.member_threshold = b.member_threshold)
    (hdup : s.member_index ∉ b.member_indexes) :
    insertShare (l1 ++ b :: l2) s = .ok (l1 ++ extendBucket b s :: l2) := by
  rw [insertShare, bucketShare_found h1 h2 hb hmt hdup]
  rfl

theorem extendBucket_gi (b : Group) (s : SSKRShare) :
    (extendBucket b s).group_index = b.group_index := by
  unfold extendBucket
  split <;> rfl

theorem extendBucket_mt (b : Group) (s : SSKRShare) :
    (extendBucket b s).member_threshold = b.member_threshold := by
  unfold extendBucket
  split <;> rfl

theorem filter_gi_append_ne {p : List SSKRShare} {s : SSKRShare} {g : Nat}
    (h : s.group_index ≠ g) :
    (p ++ [s]).filter (fun x => x.group_index == g) =
      p.filter (fun x => x.group_index == g) := by
  rw [List.filter_append]
  have hb : (s.group_index == g) = false := by simpa using h
  have hs : List.filter (fun x => x.group_index == g) [s] = [] := by
    simp [List.filter, hb]
  rw [hs, List.append_nil]

theorem filter_gi_append_eq {p : List SSKRShare} {s : SSKRShare} {g : Nat}
    (h : s.group_index = g) :
    (p ++ [s]).filter (fun x => x.group_index == g) =
      p.filter (fun x => x.group_index == g) ++ [s] := by
  rw [List.filter_append]
  have hb : (s.group_index == g) = true := by simpa using h
  have hs : List.filter (fun x => x.group_index == g) [s] = [s] := by
    simp [List.filter, hb]
  rw [hs]

theorem BInv_nil (mtOf : Nat → Nat) : BInv mtOf [] [] := by
  constructor <;> simp

theorem BInv_step {mtOf : Nat → Nat} {p : List SSKRShare} {gs : List Group}
    {s : SSKRShare}
    (inv : BInv mtOf p gs)
    (hmt : s.member_threshold = mtOf s.group_index)
    (hpos : 1 ≤ mtOf s.group_index)
    (fresh : (s.group_index, s.member_index) ∉ keyList p) :
    ∃ gs', insertShare gs s = .ok gs' ∧ BInv mtOf (p ++ [s]) gs' := by
  by_cases hg : s.group_index ∈ gs.map Group.group_index
  · -- the share's group already has a bucket
    obtain ⟨b, hbgs, hbgi⟩ : ∃ b ∈ gs, b.group_index = s.group_index := by
      simpa [List.mem_map] using hg
    obtain ⟨l1, l2, rfl⟩ := List.append_of_mem hbgs
    have hnd := inv.nodupIdx
    rw [List.map_append, List.map_cons, List.nodup_append] at hnd
    obtain ⟨hnd1, hnd2, hdisj⟩ := hnd
    have hb2 : b.group_index ∉ l2.map Group.group_index :=
      (List.nodup_cons.mp hnd2).1
    have hb1 : b.group_index ∉ l1.map Group.group_index :=
      fun ha => hdisj ha (List.mem_cons_self _ _)
    have hs1 : s.group_index ∉ l1.map Group.group_index := hbgi ▸ hb1
    have hs2 : s.group_index ∉ l2.map Group.group_index := hbgi ▸ hb2
    have hdup : s.member_index ∉ b.member_indexes := by
      intro hmem
      rw [inv.idx_eq b hbgs] at hmem
      have hmem' := (List.take_sublist _ _).subset hmem
      obtain ⟨x, hx, hxm⟩ := List.mem_map.mp hmem'
      obtain ⟨hxp, hxg⟩ := List.mem_filter.mp hx
      refine fresh (List.mem_map.mpr ⟨x, hxp, ?_⟩)
      have hxg' : x.group_index = b.group_index := by simpa using hxg
      rw [hxg', hxm, hbgi]
    have hmtb : s.member_threshold = b.member_threshold := by
      rw [inv.mt_eq b hbgs, hbgi]
      exact hmt
    refine ⟨_, insertShare_found hs1 hs2 hbgi.symm hmtb hdup, ?_⟩
    have hfils : (p ++ [s]).filter
        (fun x => x.group_index == b.group_index) =
        p.filter (fun x => x.group_index == b.group_index) ++ [s] :=
      filter_gi_append_eq hbgi.symm
    have hext_idx : (extendBucket b s).member_indexes =
        (((p ++ [s]).filter fun x => x.group_index == b.group_index).map
          SSKRShare.member_index).take (mtOf b.group_index) := by
      rw [hfils, List.map_append]
      unfold extendBucket
      by_cases hc : b.member_indexes.length < b.member_threshold
      · rw [if_pos hc]
        have hlen : (p.filter fun x =>
            x.group_index == b.group_index).length < mtOf b.group_index := by
          rw [inv.idx_eq b hbgs, inv.mt_eq b hbgs, List.length_take,
            List.length_map] at hc
          omega
        show b.member_indexes ++ [s.member_index] = _
        rw [inv.idx_eq b hbgs,
          List.take_of_length_le (by simp; omega),
          List.take_of_length_le (by simp; omega)]
        simp
      · rw [if_neg hc]
        have hlen : mtOf b.group_index ≤ (p.filter fun x =>
            x.group_index == b.group_index).length := by
          rw [inv.idx_eq b hbgs, inv.mt_eq b hbgs, List.length_take,
            List.length_map] at hc
          omega
        show b.member_indexes = _
        rw [List.take_append_of_le_length (by simp; omega),
          inv.idx_eq b hbgs]
    have hext_val : (extendBucket b s).member_shares =
        (((p ++ [s]).filter fun x => x.group_index == b.group_index).map
          SSKRShare.value).take (mtOf b.group_index) := by
      rw [hfils, List.map_append]
      unfold extendBucket
      by_cases hc : b.member_indexes.length < b.member_threshold
      · rw [if_pos hc]
        have hlen : (p.filter fun x =>
            x.group_index == b.group_index).length < mtOf b.group_index := by
          rw [inv.idx_eq b hbgs, inv.mt_eq b hbgs, List.length_take,
            List.length_map] at hc
          omega
        show b.member_shares ++ [s.value] = _
        rw [inv.val_eq b hbgs,
          List.take_of_length_le (by simp; omega),
          List.take_of_length_le (by simp; omega)]
        simp
      · rw [if_neg hc]
        have hlen : mtOf b.group_index ≤ (p.filter fun x =>
            x.group_index == b.group_index).length := by
          rw [inv.idx_eq b hbgs, inv.mt_eq b hbgs, List.length_take,
            List.length_map] at hc
          omega
        show b.member_shares = _
        rw [List.take_append_of_le_length (by simp; omega),
          inv.val_eq b hbgs]
    have hmapidx : (l1 ++ extendBucket b s :: l2).map Group.group_index =
        (l1 ++ b :: l2).map Group.group_index := by
      rw [List.map_append, List.map_append, List.map_cons, List.map_cons,
        extendBucket_gi]
    refine ⟨?_, ?_, ?_, ?_, ?_⟩
    · rw [hmapidx]
      exact inv.nodupIdx
    · intro g
      rw [hmapidx]
      constructor
      · intro h
        have hp : g ∈ p.map SSKRShare.group_index := (inv.mem_iff g).mp h
        rw [List.map_append]
        exact List.mem_append.mpr (Or.inl hp)
      · intro h
        rw [List.map_append] at h
        rcases List.mem_append.mp h with h | h
        · exact (inv.mem_iff g).mpr h
        · simp only [List.map_cons, List.map_nil, List.mem_singleton] at h
          subst h
          exact hg
    · intro b' hb'
      rcases List.mem_append.mp hb' with h | h
      · exact inv.mt_eq b' (List.mem_append.mpr (Or.inl h))
      · rcases List.mem_cons.mp h with h | h
        · subst h
          rw [extendBucket_mt, extendBucket_gi]
          exact inv.mt_eq b hbgs
        · exact inv.mt_eq b'
            (List.mem_append.mpr (Or.inr (List.mem_cons_of_mem _ h)))
    · intro b' hb'
      rcases List.mem_append.mp hb' with h | h
      · have hb'gs : b' ∈ l1 ++ b :: l2 := List.mem_append.mpr (Or.inl h)
        have hne : s.group_index ≠ b'.group_index := by
          intro he
          exact hs1 (by
            rw [he]
            exact List.mem_map.mpr ⟨b', h, rfl⟩)
        rw [filter_gi_append_ne hne]
        exact inv.idx_eq b' hb'gs
      · rcases List.mem_cons.mp h with h | h
        · subst h
          rw [extendBucket_gi]
          exact hext_idx
        · have hne : s.group_index ≠ b'.group_index := by
            intro he
            exact hs2 (by
              rw [he]
              exact List.mem_map.mpr ⟨b', h, rfl⟩)
          rw [filter_gi_append_ne hne]
          exact inv.idx_eq b'
            (List.mem_append.mpr (Or.inr (List.mem_cons_of_mem _ h)))
    · intro b' hb'
      rcases List.mem_append.mp hb' with h | h
      · have hne : s.group_index ≠ b'.group_index := by
          intro he
          exact hs1 (by
            rw [he]
            exact List.mem_map.mpr ⟨b', h, rfl⟩)
        rw [filter_gi_append_ne hne]
        exact inv.val_eq b' (List.mem_append.mpr (Or.inl h))
      · rcases List.mem_cons.mp h with h | h
        · subst h
          rw [extendBucket_gi]
          exact hext_val
        · have hne : s.group_index ≠ b'.group_index := by
            intro he
            exact hs2 (by
              rw [he]
              exact List.mem_map.mpr ⟨b', h, rfl⟩)
          rw [filter_gi_append_ne hne]
          exact inv.val_eq b'
            (List.mem_append.mpr (Or.inr (List.mem_cons_of_mem _ h)))
  · -- a new bucket is opened for the share's group
    refine ⟨_, insertShare_not_found hg, ?_⟩
    have hnp : s.group_index ∉ p.map SSKRShare.group_index :=
      fun h => hg ((inv.mem_iff _).mpr h)
    have hfp : p.filter (fun x => x.group_index == s.group_index) = [] := by
      rw [List.filter_eq_nil_iff]
      intro a ha hba
      exact hnp (List.mem_map.mpr ⟨a, ha, by simpa using hba⟩)
    refine ⟨?_, ?_, ?_, ?_, ?_⟩
    · rw [List.map_append, List.nodup_append]
      refine ⟨inv.nodupIdx, by simp, ?_⟩
      intro a ha hmem
      simp only [List.map_cons, List.map_nil, List.mem_singleton] at hmem
      subst hmem
      exact hg ha
    · intro g
      rw [List.map_append, List.map_append]
      simp only [List.mem_append, inv.mem_iff g]
      simp
    · intro b' hb'
      rcases List.mem_append.mp hb' with h | h
      · exact inv.mt_eq b' h
      · simp only [List.mem_singleton] at h
        subst h
        exact hmt
    · intro b' hb'
      rcases List.mem_append.mp hb' with h | h
      · have hne : s.group_index ≠ b'.group_index := by
          intro he
          exact hg (by
            rw [he]
            exact List.mem_map.mpr ⟨b', h, rfl⟩)
        rw [filter_gi_append_ne hne]
        exact inv.idx_eq b' h
      · simp only [List.mem_singleton] at h
        subst h
        show [s.member_index] = _
        rw [filter_gi_append_eq rfl, hfp, List.nil_append, List.map_cons,
          List.map_nil, List.take_of_length_le (by simpa using hpos)]
    · intro b' hb'
      rcases List.mem_append.mp hb' with h | h
      · have hne : s.group_index ≠ b'.group_index := by
          intro he
          exact hg (by
            rw [he]
            exact List.mem_map.mpr ⟨b', h, rfl⟩)
        rw [filter_gi_append_ne hne]
        exact inv.val_eq b' h
      · simp only [List.mem_singleton] at h
        subst h
        show [s.value] = _
        rw [filter_gi_append_eq rfl, hfp, List.nil_append, List.map_cons,
          List.map_nil, List.take_of_length_le (by simpa using hpos)]

theorem keyList_append (a b : List SSKRShare) :
    keyList (a ++ b) = keyList a ++ keyList b :=
  List.map_append _ _ _

theorem combineLoop_append (ref : Nat × Nat × Nat × Nat) (gs : List Group)
    (xs ys : List SSKRShare) :
    combineLoop ref gs (xs ++ ys) =
      match combineLoop ref gs xs with
      | .error e => .error e
      | .ok gs' => combineLoop ref gs' ys := by
  induction xs generalizing gs with
  | nil => rfl
  | cons s tl ih =>
    rw [List.cons_append, combineLoop, combineLoop]
    by_cases h : shareMeta s ≠ ref
    · rw [if_pos h, if_pos h]
    · rw [if_neg h, if_neg h]
      cases hins : insertShare gs s with
      | error e => rfl
      | ok gs1 => exact ih gs1

theorem combineLoop_ok {mtOf : Nat → Nat} {ref : Nat × Nat × Nat × Nat} :
    ∀ (L p : List SSKRShare) (gs : List Group),
    BInv mtOf p gs →
    (∀ s ∈ L, shareMeta s = ref) →
    (∀ s ∈ L, s.member_threshold = mtOf s.group_index ∧
      1 ≤ mtOf s.group_index) →
    (keyList (p ++ L)).Nodup →
    ∃ gs', combineLoop ref gs L = .ok gs' ∧ BInv mtOf (p ++ L) gs' := by
  intro L
  induction L with
  | nil =>
    intro p gs inv _ _ _
    exact ⟨gs, rfl, by simpa using inv⟩
  | cons s tl ih =>
    intro p gs inv hmeta hsh hnd
    have fresh : (s.group_index, s.member_index) ∉ keyList p := by
      intro hmem
      have hnd' : (keyList p ++ keyList (s :: tl)).Nodup := by
        rw [← keyList_append]
        exact hnd
      rw [List.nodup_append] at hnd'
      exact hnd'.2.2 hmem (by simp [keyList])
    obtain ⟨gs1, hins, inv1⟩ :=
      BInv_step inv (hsh s (by simp)).1 (hsh s (by simp)).2 fresh
    have hnd2 : (keyList ((p ++ [s]) ++ tl)).Nodup := by
      have : (p ++ [s]) ++ tl = p ++ s :: tl := by simp
      rw [this]
      exact hnd
    obtain ⟨gs', hloop, inv'⟩ := ih (p ++ [s]) gs1 inv1
      (fun x hx => hmeta x (by simp [hx]))
      (fun x hx => hsh x (by simp [hx])) hnd2
    refine ⟨gs', ?_, ?_⟩
    · rw [combineLoop, if_neg (by simp [hmeta s (by simp)]), hins]
      exact hloop
    · rw [show p ++ s :: tl = (p ++ [s]) ++ tl from by simp]
      exact inv'

/-! ### Counting distinct group indexes -/

theorem distinctCount_eq_card (l : List Nat) :
    distinctCount l = l.toFinset.card := by
  induction l with
  | nil => simp [distinctCount]
  | cons x xs ih =>
    rw [distinctCount, ih, List.toFinset_cons]
    by_cases h : x ∈ xs
    · rw [if_pos h, Finset.insert_eq_self.mpr (List.mem_toFinset.mpr h)]
      omega
    · rw [if_neg h,
        Finset.card_insert_of_not_mem (fun hc => h (List.mem_toFinset.mp hc))]
      omega

theorem distinctCount_le_length_of_nodup {l d : List Nat}
    (hnd : d.Nodup) (hsub : ∀ x ∈ l, x ∈ d) :
    distinctCount l ≤ d.length := by
  rw [distinctCount_eq_card, ← List.toFinset_card_of_nodup hnd]
  refine Finset.card_le_card ?_
  intro x hx
  rw [List.mem_toFinset] at hx ⊢
  exact hsub x hx

theorem length_eq_distinctCount_of_nodup {l d : List Nat}
    (hnd : d.Nodup) (hiff : ∀ x, x ∈ d ↔ x ∈ l) :
    d.length = distinctCount l := by
  rw [distinctCount_eq_card, ← List.toFinset_card_of_nodup hnd]
  have : d.toFinset = l.toFinset := by
    apply Finset.ext
    intro x
    rw [List.mem_toFinset, List.mem_toFinset]
    exact hiff x
  rw [this]

/-! ### The recovery phase of `combine_shares` -/

theorem zip_take_take {α β : Type} :
    ∀ (n : Nat) (l1 : List α) (l2 : List β),
    (l1.take n).zip (l2.take n) = (l1.zip l2).take n
  | 0, _, _ => by simp
  | _ + 1, [], _ => by simp
  | _ + 1, _ :: _, [] => by simp
  | n + 1, a :: l1, b :: l2 => by
    simp only [List.take_succ_cons, List.zip_cons_cons]
    rw [zip_take_take n l1 l2]

theorem recoverGroupSecrets_ok {prim : ShamirPrim} {gs : List Group}
    (F : Nat → List Nat)
    (h : ∀ b ∈ gs,
      prim.recover b.member_indexes b.member_shares =
        some (F b.group_index)) :
    recoverGroupSecrets prim gs =
      .ok (gs.map fun b => (b.group_index, F b.group_index)) := by
  induction gs with
  | nil => rfl
  | cons b tl ih =>
    rw [recoverGroupSecrets, h b (by simp),
      ih (fun x hx => h x (by simp [hx]))]
    rfl

/-- Member indexes of the shares of one group are distinct whenever the
(group, member) keys of the whole list are. -/
theorem nodup_member_of_nodup_key {F : List SSKRShare} {g : Nat}
    (hk : (keyList F).Nodup) (hg : ∀ x ∈ F, x.group_index = g) :
    (F.map SSKRShare.member_index).Nodup := by
  induction F with
  | nil => simp
  | cons x tl ih =>
    rw [List.map_cons, List.nodup_cons]
    rw [keyList, List.map_cons, List.nodup_cons] at hk
    refine ⟨?_, ih hk.2 (fun y hy => hg y (List.mem_cons_of_mem _ hy))⟩
    intro hmem
    obtain ⟨y, hy, hym⟩ := List.mem_map.mp hmem
    refine hk.1 ?_
    show (x.group_index, x.member_index) ∈ _
    rw [show (x.group_index, x.member_index) =
      (y.group_index, y.member_index) from by
        rw [hym, hg x (by simp), hg y (List.mem_cons_of_mem _ hy)]]
    exact List.mem_map.mpr ⟨y, hy, rfl⟩

/-- Recovery succeeds on a bucket that reached its threshold: the bucket
holds threshold-many distinct member indexes paired with the matching
split values, so the `RecoversTo` contract applies. -/
theorem bucket_recover_ok {prim : ShamirPrim} {mtOf : Nat → Nat}
    {L : List SSKRShare} {gs : List Group} {b : Group}
    (msecsA : Nat → List (List Nat)) (gsecF : Nat → List Nat)
    (inv : BInv mtOf L gs) (hb : b ∈ gs)
    (hk : (keyList L).Nodup)
    (hcount : mtOf b.group_index ≤
      (L.filter fun s => s.group_index == b.group_index).length)
    (hvals : ∀ x ∈ L,
      (msecsA x.group_index)[x.member_index]? = some x.value)
    (hrec : RecoversTo prim (mtOf b.group_index) (msecsA b.group_index)
      (gsecF b.group_index)) :
    prim.recover b.member_indexes b.member_shares =
      some (gsecF b.group_index) := by
  have hidx := inv.idx_eq b hb
  have hval := inv.val_eq b hb
  have hpair : b.member_indexes.zip b.member_shares =
      ((L.filter fun s => s.group_index == b.group_index).map
        (fun s => (s.member_index, s.value))).take (mtOf b.group_index) := by
    rw [hidx, hval, zip_take_take, List.zip_map']
  have hlidx : b.member_indexes.length =
      min (mtOf b.group_index)
        (L.filter fun s => s.group_index == b.group_index).length := by
    rw [hidx]
    simp [List.length_take]
  have hlval : b.member_shares.length =
      min (mtOf b.group_index)
        (L.filter fun s => s.group_index == b.group_index).length := by
    rw [hval]
    simp [List.length_take]
  have hkF : (keyList (L.filter fun s =>
      s.group_index == b.group_index)).Nodup :=
    ((List.filter_sublist L).map _).nodup hk
  have hgF : ∀ x ∈ (L.filter fun s => s.group_index == b.group_index),
      x.group_index = b.group_index := by
    intro x hx
    have := (List.mem_filter.mp hx).2
    simpa using this
  have hnodup : b.member_indexes.Nodup := by
    rw [hidx]
    exact (List.take_sublist _ _).nodup (nodup_member_of_nodup_key hkF hgF)
  have happ := hrec (b.member_indexes.zip b.member_shares) ?_ ?_ ?_
  · rw [List.map_fst_zip _ _ (by omega), List.map_snd_zip _ _ (by omega)]
      at happ
    exact happ
  · rw [List.length_zip]
    omega
  · have hmapfst : List.map Prod.fst
        (b.member_indexes.zip b.member_shares) = b.member_indexes :=
      List.map_fst_zip _ _ (by omega)
    have hpw : (List.map Prod.fst
        (b.member_indexes.zip b.member_shares)).Pairwise (· ≠ ·) := by
      rw [hmapfst]
      exact hnodup
    exact List.pairwise_map.mp hpw
  · intro p hp
    rw [hpair] at hp
    have hp' := List.mem_of_mem_take hp
    obtain ⟨x, hxF, hxp⟩ := List.mem_map.mp hp'
    have hxL : x ∈ L := (List.mem_filter.mp hxF).1
    have hxg : x.group_index = b.group_index := hgF x hxF
    rw [← hxp]
    show (msecsA b.group_index)[x.member_index]? = some x.value
    rw [← hxg]
    exact hvals x hxL

/-! ### Characterization of `generate_shares` under the Shamir contract -/

theorem secretNewAll_ok {l : List (List Nat)}
    (h : ∀ v ∈ l, SecretLenValid v.length) :
    secretNewAll l = .ok l := by
  induction l with
  | nil => rfl
  | cons v tl ih =>
    rw [secretNewAll, secretNew_ok (h v (by simp)),
      ih (fun x hx => h x (by simp [hx]))]

theorem buildShares_length (ident gt gc : Nat) :
    ∀ (l : List (GroupSpec × List (List Nat))) (i : Nat),
    (buildShares ident gt gc l i).length = l.length
  | [], _ => rfl
  | (g, ms) :: rest, i => by
    rw [buildShares, List.length_cons, List.length_cons,
      buildShares_length ident gt gc rest (i + 1)]

theorem buildShares_getD (ident gt gc : Nat) :
    ∀ (l : List (GroupSpec × List (List Nat))) (i j : Nat),
    j < l.length →
    (buildShares ident gt gc l i).getD j [] =
      ((l.getD j (⟨0, 0⟩, [])).2.enum.map fun p =>
        ⟨ident, i + j, gt, gc, p.1,
         (l.getD j (⟨0, 0⟩, [])).1.member_threshold, p.2⟩)
  | [], _, j, hj => by simp at hj
  | (g, ms) :: rest, i, 0, _ => by
    rw [buildShares]
    simp
  | (g, ms) :: rest, i, j + 1, hj => by
    rw [buildShares]
    show (buildShares ident gt gc rest (i + 1)).getD j [] = _
    rw [buildShares_getD ident gt gc rest (i + 1) j (by simpa using hj)]
    have : i + 1 + j = i + (j + 1) := by omega
    rw [this]
    rfl

theorem genGroupLoop_ok {prim : ShamirPrim} (hC : ShamirContract prim)
    (ident gt gc : Nat) {gsecrets : List (List Nat)} :
    ∀ (gl : List GroupSpec) (i : Nat) (rng : Nat → Nat),
    (∀ g ∈ gl, 1 ≤ g.member_threshold ∧
      g.member_threshold ≤ g.member_count ∧
      g.member_count ≤ MAX_SHARE_COUNT) →
    (∀ j, j < gl.length → i + j < gsecrets.length) →
    (∀ gs ∈ gsecrets, SecretLenValid gs.length) →
    ∃ msecs : List (List (List Nat)),
      msecs.length = gl.length ∧
      (∀ j, j < gl.length →
        (msecs.getD j []).length = (gl.getD j ⟨0, 0⟩).member_count ∧
        (∀ v ∈ msecs.getD j [],
          v.length = (gsecrets.getD (i + j) []).length) ∧
        RecoversTo prim (gl.getD j ⟨0, 0⟩).member_threshold
          (msecs.getD j []) (gsecrets.getD (i + j) [])) ∧
      genGroupLoop prim ident gt gc gsecrets gl i rng =
        .ok (buildShares ident gt gc (gl.zip msecs) i) := by
  intro gl
  induction gl with
  | nil =>
    intro i rng _ _ _
    exact ⟨[], rfl, fun j hj => by simp at hj, rfl⟩
  | cons g tl ih =>
    intro i rng hgl hbound hglen
    have hi : i < gsecrets.length := by
      have := hbound 0 (by simp)
      simpa using this
    have hmem : gsecrets.getD i [] ∈ gsecrets := by
      rw [List.getD_eq_getElem _ _ hi]
      exact List.getElem_mem hi
    obtain ⟨raw, rng2, hspl, hrawlen, hrawlens, hrec⟩ :=
      hC g.member_threshold g.member_count (gsecrets.getD i []) rng
        (hgl g (by simp)).1 (hgl g (by simp)).2.1 (hgl g (by simp)).2.2
        (hglen _ hmem)
    have hvalid : ∀ v ∈ raw, SecretLenValid v.length := by
      intro v hv
      rw [hrawlens v hv]
      exact hglen _ hmem
    obtain ⟨msecs, hmlen, hmprop, heq⟩ := ih (i + 1) rng2
      (fun x hx => hgl x (by simp [hx]))
      (fun j hj => by
        have := hbound (j + 1) (by simpa using hj)
        omega)
      hglen
    refine ⟨raw :: msecs, by simpa using hmlen, ?_, ?_⟩
    · intro j hj
      cases j with
      | zero =>
        refine ⟨by simpa using hrawlen, ?_, ?_⟩
        · intro v hv
          simp only [List.getD_cons_zero] at hv ⊢
          rw [Nat.add_zero]
          exact hrawlens v hv
        · simp only [List.getD_cons_zero, Nat.add_zero]
          exact hrec
      | succ j =>
        have hj' : j < tl.length := by simpa using hj
        have := hmprop j hj'
        simp only [List.getD_cons_succ]
        have harith : i + 1 + j = i + (j + 1) := by omega
        rw [← harith]
        exact this
    · rw [genGroupLoop, hspl]
      simp only [secretNewAll_ok hvalid, heq]
      rfl

theorem generate_shares_ok {prim : ShamirPrim} (hC : ShamirContract prim)
    {spec : Spec} {secret : List Nat} {rng : Nat → Nat}
    (hS : SpecValid spec) (hsec : SecretLenValid secret.length) :
    ∃ (gsecrets : List (List Nat)) (msecs : List (List (List Nat))),
      gsecrets.length = spec.groups.length ∧
      (∀ gs ∈ gsecrets, gs.length = secret.length) ∧
      RecoversTo prim spec.group_threshold gsecrets secret ∧
      msecs.length = spec.groups.length ∧
      (∀ j, j < spec.groups.length →
        (msecs.getD j []).length = (spec.groups.getD j ⟨0, 0⟩).member_count ∧
        (∀ v ∈ msecs.getD j [], v.length = secret.length) ∧
        RecoversTo prim (spec.groups.getD j ⟨0, 0⟩).member_threshold
          (msecs.getD j []) (gsecrets.getD j [])) ∧
      generate_shares prim spec secret rng =
        .ok (buildShares (rng 0 * 256 + rng 1) spec.group_threshold
          spec.groups.length (spec.groups.zip msecs) 0) := by
  obtain ⟨h1, h2, h3, h4⟩ := hS
  obtain ⟨gsecrets, rng2, hspl, hglen, hglens, hgrec⟩ :=
    hC spec.group_threshold spec.group_count secret
      (fun i => rng (i + 2)) h1 h2 h3 hsec
  have hglv : ∀ gs ∈ gsecrets, SecretLenValid gs.length := by
    intro gs hgs
    rw [hglens gs hgs]
    exact hsec
  obtain ⟨msecs, hmlen, hmprop, heq⟩ :=
    genGroupLoop_ok hC (rng 0 * 256 + rng 1) spec.group_threshold
      spec.group_count spec.groups 0 rng2
      h4
      (fun j hj => by
        rw [hglen]
        simpa [Spec.group_count] using hj)
      hglv
  refine ⟨gsecrets, msecs, by simpa [Spec.group_count] using hglen,
    hglens, hgrec, hmlen, ?_, ?_⟩
  · intro j hj
    have := hmprop j hj
    obtain ⟨a, b, c⟩ := this
    refine ⟨a, ?_, by simpa using c⟩
    intro v hv
    rw [b v hv]
    have hjlen : j < gsecrets.length := by
      rw [hglen]
      simpa [Spec.group_count] using hj
    have : gsecrets.getD (0 + j) [] ∈ gsecrets := by
      rw [Nat.zero_add, List.getD_eq_getElem _ _ hjlen]
      exact List.getElem_mem hjlen
    rw [Nat.zero_add] at this ⊢
    exact hglens _ this
  · rw [generate_shares, hspl]
    exact heq

/-! ### Serialization round trip -/

theorem deserialize_serialize {s : SSKRShare}
    (hid : s.identifier < 65536)
    (hgt1 : 1 ≤ s.group_threshold)
    (hgtgc : s.group_threshold ≤ s.group_count)
    (hgc : s.group_count ≤ 16)
    (hgi : s.group_index < 16)
    (hmt1 : 1 ≤ s.member_threshold)
    (hmt : s.member_threshold ≤ 16)
    (hmi : s.member_index < 16)
    (hv : SecretLenValid s.value.length) :
    deserialize_share (serialize_share s) = .ok s := by
  obtain ⟨id, gi, gt, gc, mi, mt, v⟩ := s
  simp only at hid hgt1 hgtgc hgc hgi hmt1 hmt hmi hv
  show deserialize_share (id / 256 :: id % 256 ::
    (((gt - 1) % 16) * 16 + (gc - 1) % 16) ::
    ((gi % 16) * 16 + (mt - 1) % 16) :: (mi % 16) :: v) = _
  rw [deserialize_share]
  rw [if_neg (by omega), if_neg (by omega), secretNew_ok hv]
  refine congrArg Except.ok ?_
  simp only [SSKRShare.mk.injEq]
  refine ⟨by omega, by omega, by omega, by omega, by omega, by omega,
    trivial⟩

theorem deserializeAll_map {shares : List SSKRShare}
    (h : ∀ s ∈ shares, deserialize_share (serialize_share s) = .ok s) :
    deserializeAll (shares.map serialize_share) = .ok shares := by
  induction shares with
  | nil => rfl
  | cons s tl ih =>
    rw [List.map_cons, deserializeAll, h s (by simp),
      ih (fun x hx => h x (by simp [hx]))]

/-- The share sitting at position `(j, k)` of the generated hierarchy. -/
theorem buildShares_elem (ident gt gc : Nat) :
    ∀ (l : List (GroupSpec × List (List Nat))) (i j k : Nat),
    j < l.length → k < (l.getD j (⟨0, 0⟩, [])).2.length →
    ((buildShares ident gt gc l i).getD j []).getD k dfltShare =
      ⟨ident, i + j, gt, gc, k,
       (l.getD j (⟨0, 0⟩, [])).1.member_threshold,
       (l.getD j (⟨0, 0⟩, [])).2.getD k []⟩
  | [], _, j, _, hj, _ => by simp at hj
  | (g, ms) :: rest, i, 0, k, _, hk => by
    simp only [List.getD_cons_zero] at hk ⊢
    rw [buildShares, List.getD_cons_zero]
    have hk' : k < (ms.enum.map fun p =>
        (⟨ident, i, gt, gc, p.1, g.member_threshold, p.2⟩ : SSKRShare)).length
        := by simpa using hk
    rw [List.getD_eq_getElem _ _ hk', List.getElem_map, List.getElem_enum,
      List.getD_eq_getElem _ _ hk, Nat.add_zero]
  | (g, ms) :: rest, i, j + 1, k, hj, hk => by
    simp only [List.getD_cons_succ] at hk ⊢
    rw [buildShares, List.getD_cons_succ,
      buildShares_elem ident gt gc rest (i + 1) j k (by simpa using hj) hk]
    have : i + 1 + j = i + (j + 1) := by omega
    rw [this]

/-- The successful combine path: a nonempty, metadata-consistent,
duplicate-free share list whose groups all reach their member thresholds
and cover at least the group threshold recovers the split secret. -/
theorem combine_ok_main {prim : ShamirPrim} (mtOf : Nat → Nat)
    (msecsA : Nat → List (List Nat)) (gsecrets : List (List Nat))
    {secret : List Nat} {s0 : SSKRShare} {rest : List SSKRShare}
    {L : List SSKRShare}
    (hL : L = s0 :: rest)
    (hmeta : ∀ s ∈ L, shareMeta s = shareMeta s0)
    (hmt : ∀ s ∈ L, s.member_threshold = mtOf s.group_index ∧
      1 ≤ mtOf s.group_index)
    (hkey : (keyList L).Nodup)
    (hgt : s0.group_threshold ≤
      distinctCount (L.map SSKRShare.group_index))
    (hcount : ∀ g ∈ L.map SSKRShare.group_index,
      mtOf g ≤ (L.filter fun s => s.group_index == g).length)
    (hvals : ∀ x ∈ L,
      (msecsA x.group_index)[x.member_index]? = some x.value)
    (hrecm : ∀ g ∈ L.map SSKRShare.group_index,
      RecoversTo prim (mtOf g) (msecsA g) (gsecrets.getD g []))
    (hgbound : ∀ g ∈ L.map SSKRShare.group_index, g < gsecrets.length)
    (hgrec : RecoversTo prim s0.group_threshold gsecrets secret)
    (hsec : SecretLenValid secret.length) :
    combine_shares prim L = .ok secret := by
  obtain ⟨gs, hloop, inv⟩ := combineLoop_ok L [] [] (BInv_nil mtOf)
    hmeta hmt (by simpa using hkey)
  rw [List.nil_append] at inv
  have hglen : s0.group_threshold ≤ gs.length := by
    have hle := distinctCount_le_length_of_nodup inv.nodupIdx
      (fun x hx => (inv.mem_iff x).mpr hx)
    rw [List.length_map] at hle
    omega
  have hbuckets : ∀ b ∈ gs,
      prim.recover b.member_indexes b.member_shares =
        some (gsecrets.getD b.group_index []) := by
    intro b hb
    have hbL : b.group_index ∈ L.map SSKRShare.group_index :=
      (inv.mem_iff b.group_index).mp (List.mem_map.mpr ⟨b, hb, rfl⟩)
    exact bucket_recover_ok msecsA (fun g => gsecrets.getD g []) inv hb
      hkey (hcount _ hbL) hvals (hrecm _ hbL)
  have happ := hgrec
    (gs.map fun b => (b.group_index, gsecrets.getD b.group_index []))
    (by
      rw [List.length_map]
      exact hglen)
    (by
      rw [List.pairwise_map]
      have := inv.nodupIdx
      rw [List.Nodup, List.pairwise_map] at this
      exact this)
    (by
      intro q hq
      obtain ⟨b, hb, hbq⟩ := List.mem_map.mp hq
      have hbL : b.group_index ∈ L.map SSKRShare.group_index :=
        (inv.mem_iff b.group_index).mp (List.mem_map.mpr ⟨b, hb, rfl⟩)
      have hlt := hgbound _ hbL
      rw [← hbq]
      show gsecrets[b.group_index]? = some (gsecrets.getD b.group_index [])
      rw [List.getElem?_eq_getElem hlt, List.getD_eq_getElem _ _ hlt])
  subst hL
  simp only [combine_shares]
  rw [hloop]
  show (if gs.length < s0.group_threshold then
      Except.error SSKRError.NotEnoughGroups
    else
      match recoverGroupSecrets prim gs with
      | Except.error e => Except.error e
      | Except.ok pairs =>
        match prim.recover (List.map Prod.fst pairs)
            (List.map Prod.snd pairs) with
        | none => Except.error SSKRError.ShamirError
        | some master => secretNew master) = Except.ok secret
  rw [if_neg (by omega),
    recoverGroupSecrets_ok (fun g => gsecrets.getD g []) hbuckets]
  show (match prim.recover
      (List.map Prod.fst
        (gs.map fun b => (b.group_index, gsecrets.getD b.group_index [])))
      (List.map Prod.snd
        (gs.map fun b => (b.group_index, gsecrets.getD b.group_index [])))
      with
    | none => Except.error SSKRError.ShamirError
    | some master => secretNew master) = Except.ok secret
  rw [happ]
  exact secretNew_ok hsec


/-- C1: for every valid `Spec` and `Secret`, and every primitive
satisfying the Shamir contract, combining any duplicate-free selection of
the serialized shares produced by `sskr_generate_using` that contains at
least `memberThreshold` shares from each represented group and represents
at least `groupThreshold` distinct groups returns `Ok` of the original
secret. -/
theorem sskr_roundtrip (prim : ShamirPrim) (hC : ShamirContract prim)
    (spec : Spec) (secret : List Nat) (rng : Nat → Nat)
    (hS : SpecValid spec) (hsec : SecretLenValid secret.length)
    (hrng : ∀ i, rng i < 256)
    (gss : List (List (List Nat)))
    (hgen : sskr_generate_using prim spec secret rng = .ok gss)
    (sel : List (Nat × Nat)) (hnd : sel.Nodup)
    (hvalid : ∀ p ∈ sel, p.1 < spec.groups.length ∧
      p.2 < (spec.groups.getD p.1 ⟨0, 0⟩).member_count)
    (hquorum : spec.group_threshold ≤ distinctCount (sel.map Prod.fst))
    (hmem : ∀ p ∈ sel, (spec.groups.getD p.1 ⟨0, 0⟩).member_threshold ≤
      sel.countP (fun q => q.1 == p.1)) :
    sskr_combine prim (sel.map fun p => (gss.getD p.1 []).getD p.2 []) =
      .ok secret := by
  obtain ⟨gsecrets, msecs, hglen, hglens, hgrec, hmlen, hmprop, hgeq⟩ :=
    generate_shares_ok hC hS hsec
  have hgss : gss = (buildShares (rng 0 * 256 + rng 1) spec.group_threshold
      spec.groups.length (spec.groups.zip msecs) 0).map
      (fun grp => grp.map serialize_share) := by
    rw [sskr_generate_using, hgeq] at hgen
    have := hgen
    simp only [Except.ok.injEq] at this
    exact this.symm
  have hzlen : (spec.groups.zip msecs).length = spec.groups.length := by
    rw [List.length_zip, hmlen]
    omega
  have hzget : ∀ j, j < spec.groups.length →
      (spec.groups.zip msecs).getD j (⟨0, 0⟩, []) =
        (spec.groups.getD j ⟨0, 0⟩, msecs.getD j []) := by
    intro j hj
    have hj2 : j < msecs.length := by omega
    have hjz : j < (spec.groups.zip msecs).length := by
      rw [hzlen]
      exact hj
    rw [List.getD_eq_getElem _ _ hjz, List.getElem_zip,
      List.getD_eq_getElem _ _ hj, List.getD_eq_getElem _ _ hj2]
  have hkmem : ∀ p ∈ sel, p.2 < (msecs.getD p.1 []).length := by
    intro p hp
    obtain ⟨hj, hk⟩ := hvalid p hp
    rw [(hmprop p.1 hj).1]
    exact hk
  have hvlen : ∀ p ∈ sel,
      ((msecs.getD p.1 []).getD p.2 []).length = secret.length := by
    intro p hp
    obtain ⟨hj, _⟩ := hvalid p hp
    refine (hmprop p.1 hj).2.1 _ ?_
    have hk := hkmem p hp
    rw [List.getD_eq_getElem _ _ hk]
    exact List.getElem_mem hk
  have hbslen : (buildShares (rng 0 * 256 + rng 1) spec.group_threshold
      spec.groups.length (spec.groups.zip msecs) 0).length =
      spec.groups.length := by
    rw [buildShares_length, hzlen]
  have hbsj : ∀ p ∈ sel,
      ((buildShares (rng 0 * 256 + rng 1) spec.group_threshold
        spec.groups.length (spec.groups.zip msecs) 0).getD p.1 []) =
      ((msecs.getD p.1 []).enum.map fun pr =>
        (⟨rng 0 * 256 + rng 1, 0 + p.1, spec.group_threshold,
          spec.groups.length, pr.1,
          (spec.groups.getD p.1 ⟨0, 0⟩).member_threshold, pr.2⟩ :
          SSKRShare)) := by
    intro p hp
    obtain ⟨hj, _⟩ := hvalid p hp
    rw [buildShares_getD _ _ _ _ _ _ (by rw [hzlen]; exact hj),
      hzget p.1 hj]
  have hbselem : ∀ p ∈ sel,
      ((buildShares (rng 0 * 256 + rng 1) spec.group_threshold
        spec.groups.length (spec.groups.zip msecs) 0).getD p.1 []).getD
        p.2 dfltShare =
      pickShare (rng 0 * 256 + rng 1) spec.group_threshold
        spec.groups.length spec msecs p := by
    intro p hp
    obtain ⟨hj, _⟩ := hvalid p hp
    rw [buildShares_elem _ _ _ _ _ _ _ (by rw [hzlen]; exact hj)
      (by rw [hzget p.1 hj]; exact hkmem p hp), hzget p.1 hj]
    show (⟨_, 0 + p.1, _, _, _, _, _⟩ : SSKRShare) = _
    rw [Nat.zero_add]
    rfl
  have hbsklen : ∀ p ∈ sel,
      p.2 < ((buildShares (rng 0 * 256 + rng 1) spec.group_threshold
        spec.groups.length (spec.groups.zip msecs) 0).getD p.1 []).length
      := by
    intro p hp
    rw [hbsj p hp, List.length_map]
    have := hkmem p hp
    simpa using this
  have hinput : (sel.map fun p => (gss.getD p.1 []).getD p.2 []) =
      (sel.map (pickShare (rng 0 * 256 + rng 1) spec.group_threshold
        spec.groups.length spec msecs)).map serialize_share := by
    rw [List.map_map]
    refine List.map_congr_left ?_
    intro p hp
    obtain ⟨hj, hk⟩ := hvalid p hp
    have hjb : p.1 < (buildShares (rng 0 * 256 + rng 1)
        spec.group_threshold spec.groups.length
        (spec.groups.zip msecs) 0).length := by
      rw [hbslen]
      exact hj
    have h1 : gss.getD p.1 [] =
        ((buildShares (rng 0 * 256 + rng 1) spec.group_threshold
          spec.groups.length (spec.groups.zip msecs) 0).getD p.1 []).map
          serialize_share := by
      rw [hgss, List.getD_eq_getElem _ _ (by
          rw [List.length_map]
          exact hjb),
        List.getElem_map, List.getD_eq_getElem _ _ hjb]
    rw [h1]
    have hkb := hbsklen p hp
    rw [List.getD_eq_getElem _ _ (by
        rw [List.length_map]
        exact hkb),
      List.getElem_map]
    show serialize_share _ = serialize_share _
    rw [← List.getD_eq_getElem _ dfltShare hkb, hbselem p hp]
  have hround : ∀ s ∈ sel.map (pickShare (rng 0 * 256 + rng 1)
      spec.group_threshold spec.groups.length spec msecs),
      deserialize_share (serialize_share s) = .ok s := by
    intro s hs
    obtain ⟨p, hp, rfl⟩ := List.mem_map.mp hs
    obtain ⟨hj, hk⟩ := hvalid p hp
    have hgmem : spec.groups.getD p.1 ⟨0, 0⟩ ∈ spec.groups := by
      rw [List.getD_eq_getElem _ _ hj]
      exact List.getElem_mem hj
    obtain ⟨hm1, hm2, hm3⟩ := hS.2.2.2 _ hgmem
    have hmax : MAX_SHARE_COUNT = 16 := rfl
    have hgl16 := hS.2.2.1
    refine deserialize_serialize ?_ hS.1 hS.2.1 (by
        show spec.groups.length ≤ 16
        omega)
      (by
        show p.1 < 16
        omega)
      hm1 (by
        show (spec.groups.getD p.1 ⟨0, 0⟩).member_threshold ≤ 16
        omega)
      (by
        show p.2 < 16
        omega) ?_
    · show rng 0 * 256 + rng 1 < 65536
      have h0 := hrng 0
      have h1 := hrng 1
      omega
    · show SecretLenValid ((msecs.getD p.1 []).getD p.2 []).length
      rw [hvlen p hp]
      exact hsec
  rw [hinput]
  rcases sel with _ | ⟨q, qs⟩
  · exfalso
    have h1 := hS.1
    simp [distinctCount] at hquorum
    omega
  have hmetaAll : ∀ p ∈ q :: qs,
      shareMeta (pickShare (rng 0 * 256 + rng 1) spec.group_threshold
        spec.groups.length spec msecs p) =
      (rng 0 * 256 + rng 1, spec.group_threshold, spec.groups.length,
        secret.length) := by
    intro p hp
    show (rng 0 * 256 + rng 1, spec.group_threshold, spec.groups.length,
      ((msecs.getD p.1 []).getD p.2 []).length) = _
    rw [hvlen p hp]
  have hmapgi : ((q :: qs).map (pickShare (rng 0 * 256 + rng 1)
      spec.group_threshold spec.groups.length spec msecs)).map
      SSKRShare.group_index = (q :: qs).map Prod.fst := by
    rw [List.map_map]
    rfl
  have hgin : ∀ g, g ∈ ((q :: qs).map (pickShare (rng 0 * 256 + rng 1)
      spec.group_threshold spec.groups.length spec msecs)).map
      SSKRShare.group_index → ∃ p ∈ q :: qs, p.1 = g := by
    intro g hg
    rw [hmapgi] at hg
    obtain ⟨p, hp, hpg⟩ := List.mem_map.mp hg
    exact ⟨p, hp, hpg⟩
  rw [sskr_combine, deserializeAll_map hround]
  show combine_shares prim _ = _
  refine combine_ok_main
    (fun g => (spec.groups.getD g ⟨0, 0⟩).member_threshold)
    (fun g => msecs.getD g []) gsecrets (List.map_cons _ _ _)
    ?_ ?_ ?_ ?_ ?_ ?_ ?_ ?_ ?_ hsec
  · intro s hs
    obtain ⟨p, hp, rfl⟩ := List.mem_map.mp hs
    rw [hmetaAll p hp, hmetaAll q (by simp)]
  · intro s hs
    obtain ⟨p, hp, rfl⟩ := List.mem_map.mp hs
    obtain ⟨hj, _⟩ := hvalid p hp
    have hgmem : spec.groups.getD p.1 ⟨0, 0⟩ ∈ spec.groups := by
      rw [List.getD_eq_getElem _ _ hj]
      exact List.getElem_mem hj
    exact ⟨rfl, (hS.2.2.2 _ hgmem).1⟩
  · show (keyList ((q :: qs).map (pickShare (rng 0 * 256 + rng 1)
      spec.group_threshold spec.groups.length spec msecs))).Nodup
    rw [keyList, List.map_map]
    show ((q :: qs).map id).Nodup
    rw [List.map_id]
    exact hnd
  · show spec.group_threshold ≤ _
    rw [hmapgi]
    exact hquorum
  · intro g hg
    obtain ⟨p, hp, rfl⟩ := hgin g hg
    have hc := hmem p hp
    rw [← List.countP_eq_length_filter]
    rw [List.countP_map]
    exact hc
  · intro x hx
    obtain ⟨p, hp, rfl⟩ := List.mem_map.mp hx
    show (msecs.getD p.1 [])[p.2]? = some ((msecs.getD p.1 []).getD p.2 [])
    have hk := hkmem p hp
    rw [List.getElem?_eq_getElem hk, List.getD_eq_getElem _ _ hk]
  · intro g hg
    obtain ⟨p, hp, rfl⟩ := hgin g hg
    exact (hmprop p.1 (hvalid p hp).1).2.2
  · intro g hg
    obtain ⟨p, hp, rfl⟩ := hgin g hg
    rw [hglen]
    exact (hvalid p hp).1
  · exact hgrec

/-- C4 counterexample: `GroupSpec::new` accepts a zero member threshold
(`new(0, 1)` returns `Ok`), so the claimed invariant
`1 ≤ memberThreshold` fails and the constructor does not return an error
on `memberThreshold == 0`. -/
theorem groupSpec_new_zero_threshold_accepted :
    GroupSpec.new 0 1 = .ok ⟨0, 1⟩ ∧
      ¬(1 ≤ (GroupSpec.mk 0 1).member_threshold) :=
  ⟨rfl, by decide⟩

/-- C4 (amended): every `GroupSpec` that `GroupSpec::new` accepts
satisfies `memberThreshold ≤ memberCount`, `1 ≤ memberCount ≤
MAX_SHARE_COUNT`, and carries exactly the arguments given; a zero
`memberThreshold` is accepted (the constructor checks only
`count == 0`, `count > MAX_SHARE_COUNT`, and `threshold > count`). -/
theorem groupSpec_new_invariant (mt mc : Nat) (g : GroupSpec)
    (h : GroupSpec.new mt mc = .ok g) :
    g.member_threshold ≤ g.member_count ∧ 1 ≤ g.member_count ∧
      g.member_count ≤ MAX_SHARE_COUNT ∧ g = ⟨mt, mc⟩ := by
  unfold GroupSpec.new at h
  split at h
  · exact absurd h (by simp)
  · split at h
    · exact absurd h (by simp)
    · split at h
      · exact absurd h (by simp)
      · rename_i h1 h2 h3
        simp only [Except.ok.injEq] at h
        subst h
        refine ⟨?_, ?_, ?_, rfl⟩
        · show mt ≤ mc
          omega
        · show 1 ≤ mc
          omega
        · show mc ≤ MAX_SHARE_COUNT
          omega

/-- C4 witness: instantiation of the amended theorem at `new(2, 3)`. -/
theorem groupSpec_new_invariant_witness :
    GroupSpec.new 2 3 = .ok ⟨2, 3⟩ ∧
      ((GroupSpec.mk 2 3).member_threshold ≤
        (GroupSpec.mk 2 3).member_count ∧
       1 ≤ (GroupSpec.mk 2 3).member_count ∧
       (GroupSpec.mk 2 3).member_count ≤ MAX_SHARE_COUNT ∧
       (GroupSpec.mk 2 3) = ⟨2, 3⟩) :=
  ⟨rfl, groupSpec_new_invariant 2 3 ⟨2, 3⟩ rfl⟩

theorem combine_shares_eq_of_recover {p1 p2 : ShamirPrim}
    (h : p1.recover = p2.recover) (shares : List SSKRShare) :
    combine_shares p1 shares = combine_shares p2 shares := by
  have hrgs : ∀ gs, recoverGroupSecrets p1 gs = recoverGroupSecrets p2 gs
      := by
    intro gs
    induction gs with
    | nil => rfl
    | cons g tl ih =>
      rw [recoverGroupSecrets, recoverGroupSecrets, h, ih]
  cases shares with
  | nil => rfl
  | cons s0 rest =>
    rw [combine_shares, combine_shares]
    cases hloop : combineLoop (shareMeta s0) [] (s0 :: rest) with
    | error e => rfl
    | ok gs =>
      show (if gs.length < s0.group_threshold then
          Except.error SSKRError.NotEnoughGroups
        else
          match recoverGroupSecrets p1 gs with
          | Except.error e => Except.error e
          | Except.ok pairs =>
            match p1.recover (List.map Prod.fst pairs)
                (List.map Prod.snd pairs) with
            | none => Except.error SSKRError.ShamirError
            | some master => secretNew master) =
        (if gs.length < s0.group_threshold then
          Except.error SSKRError.NotEnoughGroups
        else
          match recoverGroupSecrets p2 gs with
          | Except.error e => Except.error e
          | Except.ok pairs =>
            match p2.recover (List.map Prod.fst pairs)
                (List.map Prod.snd pairs) with
            | none => Except.error SSKRError.ShamirError
            | some master => secretNew master)
      rw [hrgs, h]

/-- C10: `sskr_combine` is deterministic and consumes no randomness: the
combine path is a pure function of the share list and of the external
`recover` primitive alone (two primitives agreeing on `recover` — even if
their randomized `split` halves differ — give identical results on equal
inputs, recovered secret and error kind alike). -/
theorem sskr_combine_deterministic (p1 p2 : ShamirPrim)
    (hrec : p1.recover = p2.recover) (xs ys : List (List Nat))
    (hxy : xs = ys) :
    sskr_combine p1 xs = sskr_combine p2 ys := by
  subst hxy
  rw [sskr_combine, sskr_combine]
  cases hdes : deserializeAll xs with
  | error e => rfl
  | ok shares =>
    show combine_shares p1 shares = combine_shares p2 shares
    exact combine_shares_eq_of_recover hrec shares

/-- C10 witness: instantiation at a concrete share list and primitive. -/
theorem sskr_combine_deterministic_witness :
    tagShamir.recover = tagShamir.recover ∧
      ([[0, 0, 0, 0, 0]] : List (List Nat)) = [[0, 0, 0, 0, 0]] ∧
      sskr_combine tagShamir [[0, 0, 0, 0, 0]] =
        sskr_combine tagShamir [[0, 0, 0, 0, 0]] :=
  ⟨rfl, rfl, sskr_combine_deterministic tagShamir tagShamir rfl
    [[0, 0, 0, 0, 0]] [[0, 0, 0, 0, 0]] rfl⟩

/-- C7: deserialization fails with `ShareLengthInvalid` on inputs shorter
than 5 bytes; with `GroupThresholdInvalid` when the reconstructed group
threshold (high nibble of byte 2, plus 1) exceeds the reconstructed group
count (low nibble of byte 2, plus 1); with `ShareReservedBitsInvalid`
when the high nibble of byte 4 is nonzero; otherwise it validates the
trailing bytes as a `Secret`; and every input shorter than
`5 + MIN_SECRET_LEN` bytes fails with one of these errors. -/
theorem deserialize_share_errors (source : List Nat)
    (hb : ∀ b ∈ source, b < 256) :
    (source.length < 5 →
      deserialize_share source = .error .ShareLengthInvalid) ∧
    (∀ b0 b1 b2 b3 b4 rest,
      source = b0 :: b1 :: b2 :: b3 :: b4 :: rest →
      ((b2 / 16 + 1 > b2 % 16 + 1 →
        deserialize_share source = .error .GroupThresholdInvalid) ∧
       (b2 / 16 + 1 ≤ b2 % 16 + 1 → b4 / 16 ≠ 0 →
        deserialize_share source = .error .ShareReservedBitsInvalid) ∧
       (b2 / 16 + 1 ≤ b2 % 16 + 1 → b4 / 16 = 0 →
        deserialize_share source =
          match secretNew rest with
          | .error e => .error e
          | .ok v => .ok ⟨b0 * 256 + b1, b3 / 16, b2 / 16 + 1,
              b2 % 16 + 1, b4 % 16, b3 % 16 + 1, v⟩))) ∧
    (source.length < 5 + MIN_SECRET_LEN →
      ∃ e, deserialize_share source = .error e) := by
  refine ⟨?_, ?_, ?_⟩
  · intro hlen
    match source, hlen with
    | [], _ => rfl
    | [_], _ => rfl
    | [_, _], _ => rfl
    | [_, _, _], _ => rfl
    | [_, _, _, _], _ => rfl
    | _ :: _ :: _ :: _ :: _ :: rest, hlen =>
      simp only [List.length_cons] at hlen
      omega
  · intro b0 b1 b2 b3 b4 rest hsrc
    subst hsrc
    refine ⟨?_, ?_, ?_⟩
    · intro hgt
      rw [deserialize_share, if_pos hgt]
    · intro hgt hres
      rw [deserialize_share, if_neg (by omega), if_pos hres]
    · intro hgt hres
      rw [deserialize_share, if_neg (by omega), if_neg (by omega)]
  · intro hlen
    match source, hb, hlen with
    | [], _, _ => exact ⟨_, rfl⟩
    | [_], _, _ => exact ⟨_, rfl⟩
    | [_, _], _, _ => exact ⟨_, rfl⟩
    | [_, _, _], _, _ => exact ⟨_, rfl⟩
    | [_, _, _, _], _, _ => exact ⟨_, rfl⟩
    | b0 :: b1 :: b2 :: b3 :: b4 :: rest, hb, hlen =>
      rw [deserialize_share]
      by_cases hgt : b2 / 16 + 1 > b2 % 16 + 1
      · rw [if_pos hgt]
        exact ⟨_, rfl⟩
      · rw [if_neg hgt]
        by_cases hres : b4 / 16 ≠ 0
        · rw [if_pos hres]
          exact ⟨_, rfl⟩
        · rw [if_neg hres]
          have hshort : rest.length < MIN_SECRET_LEN := by
            simp only [List.length_cons] at hlen
            omega
          rw [show secretNew rest = .error .SecretTooShort from by
            rw [secretNew, if_pos hshort]]
          exact ⟨_, rfl⟩

/-- C7 witness: instantiation at the five zero bytes, a truncated share
(it parses past the header and fails secret validation). -/
theorem deserialize_share_errors_witness :
    (∀ b ∈ ([0, 0, 0, 0, 0] : List Nat), b < 256) ∧
    ((([0, 0, 0, 0, 0] : List Nat).length < 5 →
      deserialize_share [0, 0, 0, 0, 0] = .error .ShareLengthInvalid) ∧
    (∀ b0 b1 b2 b3 b4 rest,
      ([0, 0, 0, 0, 0] : List Nat) = b0 :: b1 :: b2 :: b3 :: b4 :: rest →
      ((b2 / 16 + 1 > b2 % 16 + 1 →
        deserialize_share [0, 0, 0, 0, 0] = .error .GroupThresholdInvalid)
        ∧
       (b2 / 16 + 1 ≤ b2 % 16 + 1 → b4 / 16 ≠ 0 →
        deserialize_share [0, 0, 0, 0, 0] =
          .error .ShareReservedBitsInvalid) ∧
       (b2 / 16 + 1 ≤ b2 % 16 + 1 → b4 / 16 = 0 →
        deserialize_share [0, 0, 0, 0, 0] =
          match secretNew rest with
          | .error e => .error e
          | .ok v => .ok ⟨b0 * 256 + b1, b3 / 16, b2 / 16 + 1,
              b2 % 16 + 1, b4 % 16, b3 % 16 + 1, v⟩))) ∧
    (([0, 0, 0, 0, 0] : List Nat).length < 5 + MIN_SECRET_LEN →
      ∃ e, deserialize_share [0, 0, 0, 0, 0] = .error e)) :=
  ⟨by decide, deserialize_share_errors [0, 0, 0, 0, 0] (by decide)⟩

/-- C1 witness: a concrete 1-of-1 split of a 16-byte secret under the
model primitive, recombined from its single share. -/
theorem sskr_roundtrip_witness :
    sskr_generate_using tagShamir ⟨1, [⟨1, 1⟩]⟩ (List.replicate 16 0)
      (fun _ => 0) =
      .ok [[[0, 0, 0, 0, 0, 18, 0, 0, 0, 0, 0, 0, 0, 0, 0, 0, 0, 0, 0, 0,
        0]]] ∧
    sskr_combine tagShamir
      (([((0 : Nat), (0 : Nat))]).map fun p =>
        (([[[0, 0, 0, 0, 0, 18, 0, 0, 0, 0, 0, 0, 0, 0, 0, 0, 0, 0, 0, 0,
          0]]].getD p.1 []).getD p.2 [])) =
      .ok (List.replicate 16 0) :=
  ⟨rfl, sskr_roundtrip tagShamir tagShamir_contract ⟨1, [⟨1, 1⟩]⟩
    (List.replicate 16 0) (fun _ => 0) (by decide) (by decide)
    (fun _ => Nat.succ_pos 255)
    [[[0, 0, 0, 0, 0, 18, 0, 0, 0, 0, 0, 0, 0, 0, 0, 0, 0, 0, 0, 0, 0]]]
    rfl [(0, 0)] (by decide) (by decide) (by decide) (by decide)⟩

/-- C9: under the Shamir contract, generation for a valid `Spec` and
`Secret` succeeds and produces exactly `group_count` sequences in group
order; the `i`-th sequence holds exactly `groups[i].member_count` shares
in member-index order; every share carries the identifier formed
big-endian from the first two rng bytes (a 16-bit value), group index
`i`, the spec's group threshold and count, its position as member index,
and group `i`'s member threshold. -/
theorem generate_shares_structure (prim : ShamirPrim)
    (hC : ShamirContract prim) (spec : Spec) (secret : List Nat)
    (rng : Nat → Nat) (hS : SpecValid spec)
    (hsec : SecretLenValid secret.length) (hrng : ∀ i, rng i < 256) :
    ∃ gss, generate_shares prim spec secret rng = .ok gss ∧
      gss.length = spec.group_count ∧
      rng 0 * 256 + rng 1 < 65536 ∧
      ∀ j, j < spec.group_count →
        (gss.getD j []).length =
          (spec.groups.getD j ⟨0, 0⟩).member_count ∧
        ∀ k, k < (gss.getD j []).length →
          ((gss.getD j []).getD k dfltShare).identifier =
            rng 0 * 256 + rng 1 ∧
          ((gss.getD j []).getD k dfltShare).group_index = j ∧
          ((gss.getD j []).getD k dfltShare).group_threshold =
            spec.group_threshold ∧
          ((gss.getD j []).getD k dfltShare).group_count =
            spec.group_count ∧
          ((gss.getD j []).getD k dfltShare).member_index = k ∧
          ((gss.getD j []).getD k dfltShare).member_threshold =
            (spec.groups.getD j ⟨0, 0⟩).member_threshold := by
  obtain ⟨gsecrets, msecs, hglen, hglens, hgrec, hmlen, hmprop, hgeq⟩ :=
    generate_shares_ok hC hS hsec
  have hzlen : (spec.groups.zip msecs).length = spec.groups.length := by
    rw [List.length_zip, hmlen]
    omega
  have hzget : ∀ j, j < spec.groups.length →
      (spec.groups.zip msecs).getD j (⟨0, 0⟩, []) =
        (spec.groups.getD j ⟨0, 0⟩, msecs.getD j []) := by
    intro j hj
    have hj2 : j < msecs.length := by omega
    have hjz : j < (spec.groups.zip msecs).length := by
      rw [hzlen]
      exact hj
    rw [List.getD_eq_getElem _ _ hjz, List.getElem_zip,
      List.getD_eq_getElem _ _ hj, List.getD_eq_getElem _ _ hj2]
  refine ⟨_, hgeq, ?_, ?_, ?_⟩
  · rw [buildShares_length, hzlen]
    rfl
  · have h0 := hrng 0
    have h1 := hrng 1
    omega
  · intro j hj
    have hj' : j < spec.groups.length := hj
    have hjz : j < (spec.groups.zip msecs).length := by
      rw [hzlen]
      exact hj'
    have hgetj := buildShares_getD (rng 0 * 256 + rng 1)
      spec.group_threshold spec.groups.length (spec.groups.zip msecs) 0 j
      hjz
    rw [hzget j hj'] at hgetj
    constructor
    · rw [hgetj, List.length_map]
      show (msecs.getD j []).enum.length = _
      rw [List.enum_length]
      exact (hmprop j hj').1
    · intro k hk
      rw [hgetj, List.length_map] at hk
      have hk' : k < (msecs.getD j []).length := by
        rw [← List.enum_length]
        exact hk
      have helem := buildShares_elem (rng 0 * 256 + rng 1)
        spec.group_threshold spec.groups.length (spec.groups.zip msecs) 0
        j k hjz (by rw [hzget j hj']; exact hk')
      rw [hzget j hj'] at helem
      rw [helem]
      exact ⟨rfl, by simp, rfl, rfl, rfl, rfl⟩

/-- C9 witness: concrete instantiation for a 1-of-1 spec. -/
theorem generate_shares_structure_witness :
    ∃ gss, generate_shares tagShamir ⟨1, [⟨1, 1⟩]⟩ (List.replicate 16 0)
        (fun _ => 0) = .ok gss ∧
      gss.length = Spec.group_count ⟨1, [⟨1, 1⟩]⟩ ∧
      (fun _ => (0 : Nat)) 0 * 256 + (fun _ => (0 : Nat)) 1 < 65536 ∧
      ∀ j, j < Spec.group_count ⟨1, [⟨1, 1⟩]⟩ →
        (gss.getD j []).length =
          ((Spec.groups ⟨1, [⟨1, 1⟩]⟩).getD j ⟨0, 0⟩).member_count ∧
        ∀ k, k < (gss.getD j []).length →
          ((gss.getD j []).getD k dfltShare).identifier =
            (fun _ => (0 : Nat)) 0 * 256 + (fun _ => (0 : Nat)) 1 ∧
          ((gss.getD j []).getD k dfltShare).group_index = j ∧
          ((gss.getD j []).getD k dfltShare).group_threshold =
            Spec.group_threshold ⟨1, [⟨1, 1⟩]⟩ ∧
          ((gss.getD j []).getD k dfltShare).group_count =
            Spec.group_count ⟨1, [⟨1, 1⟩]⟩ ∧
          ((gss.getD j []).getD k dfltShare).member_index = k ∧
          ((gss.getD j []).getD k dfltShare).member_threshold =
            ((Spec.groups ⟨1, [⟨1, 1⟩]⟩).getD j ⟨0, 0⟩).member_threshold
    :=
  generate_shares_structure tagShamir tagShamir_contract ⟨1, [⟨1, 1⟩]⟩
    (List.replicate 16 0) (fun _ => 0) (by decide) (by decide)
    (fun _ => Nat.succ_pos 255)

/-- C8: every share produced during generation serializes to exactly
`5 + len(value)` bytes laid out as: identifier high byte, identifier low
byte, `(groupThreshold-1)*16 + (groupCount-1)`,
`groupIndex*16 + (memberThreshold-1)`, `memberIndex` (with zero high
nibble, so no masking truncates anything), then the value bytes; and the
value length equals the original secret's length. -/
theorem serialize_share_layout (prim : ShamirPrim)
    (hC : ShamirContract prim) (spec : Spec) (secret : List Nat)
    (rng : Nat → Nat) (hS : SpecValid spec)
    (hsec : SecretLenValid secret.length) (hrng : ∀ i, rng i < 256)
    (gss : List (List SSKRShare))
    (hgen : generate_shares prim spec secret rng = .ok gss)
    (grp : List SSKRShare) (hgrp : grp ∈ gss) (s : SSKRShare)
    (hs : s ∈ grp) :
    (serialize_share s).length = 5 + s.value.length ∧
    (serialize_share s).getD 0 0 = s.identifier / 256 ∧
    (serialize_share s).getD 1 0 = s.identifier % 256 ∧
    (serialize_share s).getD 2 0 =
      (s.group_threshold - 1) * 16 + (s.group_count - 1) ∧
    (serialize_share s).getD 3 0 =
      s.group_index * 16 + (s.member_threshold - 1) ∧
    (serialize_share s).getD 4 0 = s.member_index ∧
    s.member_index / 16 = 0 ∧
    (serialize_share s).drop 5 = s.value ∧
    s.value.length = secret.length ∧
    s.identifier < 65536 := by
  obtain ⟨gsecrets, msecs, hglen, hglens, hgrec, hmlen, hmprop, hgeq⟩ :=
    generate_shares_ok hC hS hsec
  have hgss : gss = buildShares (rng 0 * 256 + rng 1) spec.group_threshold
      spec.groups.length (spec.groups.zip msecs) 0 := by
    rw [hgen] at hgeq
    simp only [Except.ok.injEq] at hgeq
    exact hgeq
  have hzlen : (spec.groups.zip msecs).length = spec.groups.length := by
    rw [List.length_zip, hmlen]
    omega
  have hzget : ∀ j, j < spec.groups.length →
      (spec.groups.zip msecs).getD j (⟨0, 0⟩, []) =
        (spec.groups.getD j ⟨0, 0⟩, msecs.getD j []) := by
    intro j hj
    have hj2 : j < msecs.length := by omega
    have hjz : j < (spec.groups.zip msecs).length := by
      rw [hzlen]
      exact hj
    rw [List.getD_eq_getElem _ _ hjz, List.getElem_zip,
      List.getD_eq_getElem _ _ hj, List.getD_eq_getElem _ _ hj2]
  obtain ⟨j, hjl, hje⟩ := List.getElem_of_mem hgrp
  obtain ⟨k, hkl, hke⟩ := List.getElem_of_mem hs
  have hj : j < spec.groups.length := by
    rw [hgss, buildShares_length, hzlen] at hjl
    exact hjl
  have hjz : j < (spec.groups.zip msecs).length := by
    rw [hzlen]
    exact hj
  have hgrpD : gss.getD j [] = grp := by
    rw [List.getD_eq_getElem _ _ hjl, hje]
  have hgetj := buildShares_getD (rng 0 * 256 + rng 1)
    spec.group_threshold spec.groups.length (spec.groups.zip msecs) 0 j
    hjz
  rw [hzget j hj] at hgetj
  have hgrpeq : grp = ((msecs.getD j []).enum.map fun p =>
      (⟨rng 0 * 256 + rng 1, 0 + j, spec.group_threshold,
        spec.groups.length, p.1,
        (spec.groups.getD j ⟨0, 0⟩).member_threshold, p.2⟩ : SSKRShare))
      := by
    rw [← hgrpD, hgss]
    exact hgetj
  have hkm : k < (msecs.getD j []).length := by
    rw [hgrpeq, List.length_map, List.enum_length] at hkl
    exact hkl
  have hseq : s = ⟨rng 0 * 256 + rng 1, j, spec.group_threshold,
      spec.groups.length, k,
      (spec.groups.getD j ⟨0, 0⟩).member_threshold,
      (msecs.getD j []).getD k []⟩ := by
    rw [← hke, ← List.getD_eq_getElem _ dfltShare hkl, ← hgrpD, hgss,
      buildShares_elem _ _ _ _ _ _ _ hjz (by
        rw [hzget j hj]
        exact hkm),
      hzget j hj]
    show (⟨_, 0 + j, _, _, _, _, _⟩ : SSKRShare) = _
    rw [Nat.zero_add]
  have hgmem : spec.groups.getD j ⟨0, 0⟩ ∈ spec.groups := by
    rw [List.getD_eq_getElem _ _ hj]
    exact List.getElem_mem hj
  obtain ⟨hm1, hm2, hm3⟩ := hS.2.2.2 _ hgmem
  have hmax : MAX_SHARE_COUNT = 16 := rfl
  have hgl16 := hS.2.2.1
  have hgt1 := hS.1
  have hgt2 := hS.2.1
  have hmc : k < (spec.groups.getD j ⟨0, 0⟩).member_count := by
    rw [← (hmprop j hj).1]
    exact hkm
  have hvlen : ((msecs.getD j []).getD k []).length = secret.length := by
    refine (hmprop j hj).2.1 _ ?_
    rw [List.getD_eq_getElem _ _ hkm]
    exact List.getElem_mem hkm
  have h0 := hrng 0
  have h1 := hrng 1
  subst hseq
  refine ⟨by simp [serialize_share]; omega, rfl, rfl, ?_, ?_, ?_, ?_,
    rfl, hvlen, ?_⟩
  · show ((spec.group_threshold - 1) % 16) * 16 +
      (spec.groups.length - 1) % 16 = _
    have e1 : (spec.group_threshold - 1) % 16 = spec.group_threshold - 1
        := by omega
    have e2 : (spec.groups.length - 1) % 16 = spec.groups.length - 1 := by
      omega
    rw [e1, e2]
  · show (j % 16) * 16 +
      ((spec.groups.getD j ⟨0, 0⟩).member_threshold - 1) % 16 = _
    have e1 : j % 16 = j := by omega
    have e2 : ((spec.groups.getD j ⟨0, 0⟩).member_threshold - 1) % 16 =
        (spec.groups.getD j ⟨0, 0⟩).member_threshold - 1 := by omega
    rw [e1, e2]
  · show k % 16 = k
    omega
  · show k / 16 = 0
    omega
  · show rng 0 * 256 + rng 1 < 65536
    omega

/-- C8 witness: instantiation for a concrete 1-of-1 generation run. -/
theorem serialize_share_layout_witness :
    generate_shares tagShamir ⟨1, [⟨1, 1⟩]⟩ (List.replicate 16 0)
      (fun _ => 0) = .ok [[⟨0, 0, 1, 1, 0, 1,
        18 :: List.replicate 15 0⟩]] ∧
    ((serialize_share ⟨0, 0, 1, 1, 0, 1,
        18 :: List.replicate 15 0⟩).length = 5 +
      (SSKRShare.mk 0 0 1 1 0 1 (18 :: List.replicate 15 0)).value.length ∧
     (serialize_share ⟨0, 0, 1, 1, 0, 1,
        18 :: List.replicate 15 0⟩).getD 0 0 =
      (SSKRShare.mk 0 0 1 1 0 1 (18 :: List.replicate 15 0)).identifier /
        256 ∧
     (serialize_share ⟨0, 0, 1, 1, 0, 1,
        18 :: List.replicate 15 0⟩).getD 1 0 =
      (SSKRShare.mk 0 0 1 1 0 1 (18 :: List.replicate 15 0)).identifier %
        256 ∧
     (serialize_share ⟨0, 0, 1, 1, 0, 1,
        18 :: List.replicate 15 0⟩).getD 2 0 =
      ((SSKRShare.mk 0 0 1 1 0 1
        (18 :: List.replicate 15 0)).group_threshold - 1) * 16 +
      ((SSKRShare.mk 0 0 1 1 0 1
        (18 :: List.replicate 15 0)).group_count - 1) ∧
     (serialize_share ⟨0, 0, 1, 1, 0, 1,
        18 :: List.replicate 15 0⟩).getD 3 0 =
      (SSKRShare.mk 0 0 1 1 0 1
        (18 :: List.replicate 15 0)).group_index * 16 +
      ((SSKRShare.mk 0 0 1 1 0 1
        (18 :: List.replicate 15 0)).member_threshold - 1) ∧
     (serialize_share ⟨0, 0, 1, 1, 0, 1,
        18 :: List.replicate 15 0⟩).getD 4 0 =
      (SSKRShare.mk 0 0 1 1 0 1
        (18 :: List.replicate 15 0)).member_index ∧
     (SSKRShare.mk 0 0 1 1 0 1
        (18 :: List.replicate 15 0)).member_index / 16 = 0 ∧
     (serialize_share ⟨0, 0, 1, 1, 0, 1,
        18 :: List.replicate 15 0⟩).drop 5 =
      (SSKRShare.mk 0 0 1 1 0 1 (18 :: List.replicate 15 0)).value ∧
     (SSKRShare.mk 0 0 1 1 0 1
        (18 :: List.replicate 15 0)).value.length =
      (List.replicate 16 (0 : Nat)).length ∧
     (SSKRShare.mk 0 0 1 1 0 1
        (18 :: List.replicate 15 0)).identifier < 65536) :=
  ⟨rfl, serialize_share_layout tagShamir tagShamir_contract
    ⟨1, [⟨1, 1⟩]⟩ (List.replicate 16 0) (fun _ => 0) (by decide)
    (by decide) (fun _ => Nat.succ_pos 255)
    [[⟨0, 0, 1, 1, 0, 1, 18 :: List.replicate 15 0⟩]] rfl
    [⟨0, 0, 1, 1, 0, 1, 18 :: List.replicate 15 0⟩] (by simp)
    ⟨0, 0, 1, 1, 0, 1, 18 :: List.replicate 15 0⟩ (by simp)⟩

/-! ### Error paths of the combine loop -/

theorem insertShare_dup {gs : List Group} {s : SSKRShare} {b : Group}
    (hnd : (gs.map Group.group_index).Nodup)
    (hb : b ∈ gs) (hgi : b.group_index = s.group_index)
    (hmt : s.member_threshold = b.member_threshold)
    (hmem : s.member_index ∈ b.member_indexes) :
    insertShare gs s = .error .DuplicateMemberIndex := by
  obtain ⟨l1, l2, rfl⟩ := List.append_of_mem hb
  rw [List.map_append, List.map_cons, List.nodup_append] at hnd
  have hb1 : b.group_index ∉ l1.map Group.group_index :=
    fun ha => hnd.2.2 ha (List.mem_cons_self _ _)
  have hbucket : bucketShare s (l1 ++ b :: l2) =
      .error .DuplicateMemberIndex := by
    clear hnd hb
    induction l1 with
    | nil =>
      rw [List.nil_append, bucketShare, if_pos hgi.symm,
        if_neg (by simp [hmt]), if_pos hmem]
    | cons a tl ih =>
      have hne : s.group_index ≠ a.group_index := by
        intro he
        refine hb1 ?_
        rw [hgi, he]
        simp
      have htl : b.group_index ∉ tl.map Group.group_index := by
        intro hm
        exact hb1 (List.mem_cons_of_mem _ hm)
      rw [List.cons_append, bucketShare, if_neg hne, ih htl]
  rw [insertShare, hbucket]

theorem combineLoop_mismatch (mtOf : Nat → Nat)
    {ref : Nat × Nat × Nat × Nat} {pre : List SSKRShare}
    {sbad : SSKRShare} {rest : List SSKRShare}
    (hpre_meta : ∀ s ∈ pre, shareMeta s = ref)
    (hpre_mt : ∀ s ∈ pre, s.member_threshold = mtOf s.group_index ∧
      1 ≤ mtOf s.group_index)
    (hpre_key : (keyList pre).Nodup)
    (hbad : shareMeta sbad ≠ ref) :
    combineLoop ref [] (pre ++ sbad :: rest) = .error .ShareSetInvalid
    := by
  obtain ⟨gs, hloop, _⟩ := combineLoop_ok pre [] [] (BInv_nil mtOf)
    hpre_meta hpre_mt (by simpa using hpre_key)
  rw [combineLoop_append, hloop]
  show combineLoop ref gs (sbad :: rest) = _
  rw [combineLoop, if_pos hbad]

theorem combineLoop_dup (mtOf : Nat → Nat)
    {ref : Nat × Nat × Nat × Nat} {p1 p2 rest : List SSKRShare}
    {si sj : SSKRShare}
    (hpre_meta : ∀ s ∈ p1 ++ si :: p2, shareMeta s = ref)
    (hmeta_j : shareMeta sj = ref)
    (hpre_mt : ∀ s ∈ p1 ++ si :: p2,
      s.member_threshold = mtOf s.group_index ∧ 1 ≤ mtOf s.group_index)
    (hpre_key : (keyList (p1 ++ si :: p2)).Nodup)
    (hjg : sj.group_index = si.group_index)
    (hjm : sj.member_index = si.member_index)
    (hjmt : sj.member_threshold = mtOf sj.group_index)
    (hcnt : (p1.filter fun s => s.group_index == si.group_index).length <
      mtOf si.group_index) :
    combineLoop ref [] (p1 ++ si :: p2 ++ sj :: rest) =
      .error .DuplicateMemberIndex := by
  obtain ⟨gs, hloop, inv⟩ := combineLoop_ok (p1 ++ si :: p2) [] []
    (BInv_nil mtOf) hpre_meta hpre_mt (by simpa using hpre_key)
  rw [List.nil_append] at inv
  have hsi : si ∈ p1 ++ si :: p2 := by simp
  obtain ⟨b, hbgs, hbgi⟩ : ∃ b ∈ gs, b.group_index = si.group_index := by
    have : si.group_index ∈ gs.map Group.group_index :=
      (inv.mem_iff si.group_index).mpr
        (List.mem_map.mpr ⟨si, hsi, rfl⟩)
    simpa [List.mem_map] using this
  have hmem : si.member_index ∈ b.member_indexes := by
    rw [inv.idx_eq b hbgs, hbgi]
    have hfeq : (p1 ++ si :: p2).filter
        (fun s => s.group_index == si.group_index) =
        p1.filter (fun s => s.group_index == si.group_index) ++
          si :: p2.filter (fun s => s.group_index == si.group_index) := by
      rw [List.filter_append]
      congr 1
      rw [List.filter_cons, if_pos (by simp)]
    rw [hfeq, List.map_append, List.map_cons]
    set n := (p1.filter fun s =>
      s.group_index == si.group_index).length with hn
    have hlen1 : n < ((p1.filter fun s =>
        s.group_index == si.group_index).map SSKRShare.member_index ++
        si.member_index :: (p2.filter fun s =>
          s.group_index == si.group_index).map
          SSKRShare.member_index).length := by
      simp only [List.length_append, List.length_map, List.length_cons]
      omega
    have hlen2 : n < (((p1.filter fun s =>
        s.group_index == si.group_index).map SSKRShare.member_index ++
        si.member_index :: (p2.filter fun s =>
          s.group_index == si.group_index).map
          SSKRShare.member_index).take (mtOf si.group_index)).length := by
      rw [List.length_take]
      simp only [List.length_append, List.length_map, List.length_cons]
      omega
    have hget : (((p1.filter fun s =>
        s.group_index == si.group_index).map SSKRShare.member_index ++
        si.member_index :: (p2.filter fun s =>
          s.group_index == si.group_index).map
          SSKRShare.member_index).take (mtOf si.group_index))[n] =
        si.member_index := by
      rw [List.getElem_take,
        List.getElem_append_right (by simp [hn])]
      simp [hn]
    have hmem' := List.getElem_mem hlen2
    rw [hget] at hmem'
    exact hmem'
  have hins : insertShare gs sj = .error .DuplicateMemberIndex := by
    refine insertShare_dup inv.nodupIdx hbgs (by rw [hbgi, hjg]) ?_
      (by rw [hjm]; exact hmem)
    rw [inv.mt_eq b hbgs, hbgi, ← hjg]
    exact hjmt
  have hassoc : p1 ++ si :: p2 ++ sj :: rest =
      (p1 ++ si :: p2) ++ sj :: rest := by
    simp
  rw [hassoc, combineLoop_append, hloop]
  show combineLoop ref gs (sj :: rest) = _
  rw [combineLoop, if_neg (by simp [hmeta_j]), hins]

theorem deserializeAll_mem {inputs : List (List Nat)}
    {shares : List SSKRShare} (h : deserializeAll inputs = .ok shares) :
    ∀ s ∈ shares, ∃ src ∈ inputs, deserialize_share src = .ok s := by
  induction inputs generalizing shares with
  | nil =>
    cases h
    simp
  | cons x xs ih =>
    rw [deserializeAll] at h
    cases hx : deserialize_share x with
    | error e =>
      rw [hx] at h
      exact absurd h (by simp)
    | ok s0 =>
      rw [hx] at h
      cases hxs : deserializeAll xs with
      | error e =>
        rw [hxs] at h
        exact absurd h (by simp)
      | ok ss =>
        rw [hxs] at h
        simp only [Except.ok.injEq] at h
        subst h
        intro s hs
        rcases List.mem_cons.mp hs with hh | hh
        · exact ⟨x, by simp, by rw [hh]; exact hx⟩
        · obtain ⟨src, hsrc, hds⟩ := ih hxs s hh
          exact ⟨src, by simp [hsrc], hds⟩

theorem deserialize_share_fields {src : List Nat} {s : SSKRShare}
    (h : deserialize_share src = .ok s) :
    1 ≤ s.member_threshold ∧ 1 ≤ s.group_threshold ∧
      s.group_threshold ≤ s.group_count := by
  match src, h with
  | b0 :: b1 :: b2 :: b3 :: b4 :: rest, h =>
    rw [deserialize_share] at h
    split at h
    · exact absurd h (by simp)
    · split at h
      · exact absurd h (by simp)
      · rename_i hgt hres
        cases hsec : secretNew rest with
        | error e =>
          rw [hsec] at h
          exact absurd h (by simp)
        | ok v =>
          rw [hsec] at h
          simp only [Except.ok.injEq] at h
          subst h
          refine ⟨by simp, by simp, ?_⟩
          show b2 / 16 + 1 ≤ b2 % 16 + 1
          omega

theorem lookupMT_spec {L : List SSKRShare}
    (hmtc : ∀ s ∈ L, ∀ t ∈ L, s.group_index = t.group_index →
      s.member_threshold = t.member_threshold)
    {s : SSKRShare} (hs : s ∈ L) :
    lookupMT L s.group_index = s.member_threshold := by
  unfold lookupMT
  cases hf : L.find? (fun t => t.group_index == s.group_index) with
  | none =>
    rw [List.find?_eq_none] at hf
    exact absurd (by simp : (s.group_index == s.group_index) = true)
      (hf s hs)
  | some t =>
    have ht1 := List.find?_some hf
    have ht2 := List.mem_of_find?_eq_some hf
    exact hmtc t ht2 s hs (by simpa using ht1)

/-- C3 (amended): a nonempty, individually well-formed share set with
matching common metadata fails with `NotEnoughGroups` when fewer than
`groupThreshold` distinct groups are represented — provided additionally
that no two supplied shares collide on (groupIndex, memberIndex) and
shares of one group agree on the member threshold; otherwise the earlier
duplicate / threshold error is returned instead of `NotEnoughGroups`. -/
theorem combine_notEnoughGroups (prim : ShamirPrim)
    (inputs : List (List Nat)) (shares : List SSKRShare)
    (s0 : SSKRShare) (rest : List SSKRShare)
    (hdes : deserializeAll inputs = .ok shares)
    (hne : shares = s0 :: rest)
    (hmeta : ∀ s ∈ shares, shareMeta s = shareMeta s0)
    (hmtc : ∀ s ∈ shares, ∀ t ∈ shares, s.group_index = t.group_index →
      s.member_threshold = t.member_threshold)
    (hkey : (keyList shares).Nodup)
    (hlt : distinctCount (shares.map SSKRShare.group_index) <
      s0.group_threshold) :
    sskr_combine prim inputs = .error .NotEnoughGroups := by
  have hmtpos : ∀ s ∈ shares, 1 ≤ s.member_threshold := by
    intro s hs
    obtain ⟨src, _, hds⟩ := deserializeAll_mem hdes s hs
    exact (deserialize_share_fields hds).1
  have hmt : ∀ s ∈ shares,
      s.member_threshold = lookupMT shares s.group_index ∧
      1 ≤ lookupMT shares s.group_index := by
    intro s hs
    rw [lookupMT_spec hmtc hs]
    exact ⟨rfl, hmtpos s hs⟩
  obtain ⟨gs, hloop, inv⟩ := combineLoop_ok shares [] []
    (BInv_nil (lookupMT shares)) hmeta hmt (by simpa using hkey)
  rw [List.nil_append] at inv
  have hcard : gs.length =
      distinctCount (shares.map SSKRShare.group_index) := by
    have := length_eq_distinctCount_of_nodup inv.nodupIdx inv.mem_iff
    rw [List.length_map] at this
    exact this
  rw [sskr_combine, hdes]
  show combine_shares prim shares = _
  subst hne
  simp only [combine_shares]
  rw [hloop]
  show (if gs.length < s0.group_threshold then
      Except.error SSKRError.NotEnoughGroups
    else _) = _
  rw [if_pos (by omega)]

/-- C3 counterexample: two well-formed shares with matching common
metadata but colliding (groupIndex, memberIndex) keys, supplied for a
2-of-2-groups split: only 1 < 2 groups are represented, yet combine
fails with `DuplicateMemberIndex`, not `NotEnoughGroups`. -/
theorem combine_notEnoughGroups_counterexample :
    deserialize_share (0 :: 0 :: 17 :: 1 :: 0 :: List.replicate 16 1) =
      .ok ⟨0, 0, 2, 2, 0, 2, List.replicate 16 1⟩ ∧
    deserialize_share (0 :: 0 :: 17 :: 1 :: 0 :: List.replicate 16 2) =
      .ok ⟨0, 0, 2, 2, 0, 2, List.replicate 16 2⟩ ∧
    shareMeta ⟨0, 0, 2, 2, 0, 2, List.replicate 16 2⟩ =
      shareMeta ⟨0, 0, 2, 2, 0, 2, List.replicate 16 1⟩ ∧
    distinctCount (([⟨0, 0, 2, 2, 0, 2, List.replicate 16 1⟩,
      ⟨0, 0, 2, 2, 0, 2, List.replicate 16 2⟩] :
      List SSKRShare).map SSKRShare.group_index) <
      (SSKRShare.mk 0 0 2 2 0 2 (List.replicate 16 1)).group_threshold ∧
    sskr_combine tagShamir
      [0 :: 0 :: 17 :: 1 :: 0 :: List.replicate 16 1,
       0 :: 0 :: 17 :: 1 :: 0 :: List.replicate 16 2] =
      .error .DuplicateMemberIndex ∧
    SSKRError.DuplicateMemberIndex ≠ SSKRError.NotEnoughGroups :=
  ⟨rfl, rfl, rfl, by decide, rfl, by decide⟩

/-- C3 witness: a single well-formed share of a 2-of-2-groups split
yields `NotEnoughGroups`. -/
theorem combine_notEnoughGroups_witness :
    deserializeAll [0 :: 0 :: 17 :: 1 :: 0 :: List.replicate 16 1] =
      .ok [⟨0, 0, 2, 2, 0, 2, List.replicate 16 1⟩] ∧
    sskr_combine tagShamir
      [0 :: 0 :: 17 :: 1 :: 0 :: List.replicate 16 1] =
      .error .NotEnoughGroups :=
  ⟨rfl, combine_notEnoughGroups tagShamir
    [0 :: 0 :: 17 :: 1 :: 0 :: List.replicate 16 1]
    [⟨0, 0, 2, 2, 0, 2, List.replicate 16 1⟩]
    ⟨0, 0, 2, 2, 0, 2, List.replicate 16 1⟩ [] rfl rfl
    (by decide) (by decide) (by decide) (by decide)⟩

/-- C6 (amended): the first deserialized share fixes the reference
identifier, group threshold, group count, and value length, and a
subsequent share differing in any of the four makes combine fail with
`ShareSetInvalid` — provided the shares preceding the first mismatching
one are themselves free of duplicate (groupIndex, memberIndex) keys and
per-group member-threshold conflicts; otherwise that earlier error is
reported first.  In particular, mixing duplicate-free shares of two
generation runs with different identifiers fails with
`ShareSetInvalid`. -/
theorem combine_mismatch (prim : ShamirPrim) (inputs : List (List Nat))
    (shares : List SSKRShare) (s0 : SSKRShare) (pre rest : List SSKRShare)
    (sbad : SSKRShare)
    (hdes : deserializeAll inputs = .ok shares)
    (hshape : shares = (s0 :: pre) ++ sbad :: rest)
    (hpre_meta : ∀ s ∈ s0 :: pre, shareMeta s = shareMeta s0)
    (hbad : shareMeta sbad ≠ shareMeta s0)
    (hpre_mtc : ∀ s ∈ s0 :: pre, ∀ t ∈ s0 :: pre,
      s.group_index = t.group_index →
      s.member_threshold = t.member_threshold)
    (hpre_key : (keyList (s0 :: pre)).Nodup) :
    sskr_combine prim inputs = .error .ShareSetInvalid := by
  have hsubset : ∀ s ∈ s0 :: pre, s ∈ shares := by
    intro s hs
    rw [hshape]
    exact List.mem_append.mpr (Or.inl hs)
  have hmtpos : ∀ s ∈ s0 :: pre, 1 ≤ s.member_threshold := by
    intro s hs
    obtain ⟨src, _, hds⟩ := deserializeAll_mem hdes s (hsubset s hs)
    exact (deserialize_share_fields hds).1
  have hmt : ∀ s ∈ s0 :: pre,
      s.member_threshold = lookupMT (s0 :: pre) s.group_index ∧
      1 ≤ lookupMT (s0 :: pre) s.group_index := by
    intro s hs
    rw [lookupMT_spec hpre_mtc hs]
    exact ⟨rfl, hmtpos s hs⟩
  have hloopbad : combineLoop (shareMeta s0) []
      (s0 :: (pre ++ sbad :: rest)) = .error .ShareSetInvalid :=
    combineLoop_mismatch (lookupMT (s0 :: pre)) hpre_meta hmt hpre_key
      hbad
  rw [sskr_combine, hdes]
  show combine_shares prim shares = _
  subst hshape
  rw [List.cons_append]
  simp only [combine_shares]
  rw [hloopbad]

/-- C6 counterexample: with shares `[A, A, B]`, where `B` differs from
the reference metadata (another identifier) but the duplicate pair
`A, A` precedes it, combine fails with `DuplicateMemberIndex`, not with
`ShareSetInvalid` as the unqualified claim demands. -/
theorem combine_mismatch_counterexample :
    deserialize_share (0 :: 0 :: 0 :: 0 :: 0 :: List.replicate 16 3) =
      .ok ⟨0, 0, 1, 1, 0, 1, List.replicate 16 3⟩ ∧
    deserialize_share (0 :: 1 :: 0 :: 0 :: 1 :: List.replicate 16 3) =
      .ok ⟨1, 0, 1, 1, 1, 1, List.replicate 16 3⟩ ∧
    shareMeta ⟨1, 0, 1, 1, 1, 1, List.replicate 16 3⟩ ≠
      shareMeta ⟨0, 0, 1, 1, 0, 1, List.replicate 16 3⟩ ∧
    sskr_combine tagShamir
      [0 :: 0 :: 0 :: 0 :: 0 :: List.replicate 16 3,
       0 :: 0 :: 0 :: 0 :: 0 :: List.replicate 16 3,
       0 :: 1 :: 0 :: 0 :: 1 :: List.replicate 16 3] =
      .error .DuplicateMemberIndex ∧
    SSKRError.DuplicateMemberIndex ≠ SSKRError.ShareSetInvalid :=
  ⟨rfl, rfl, by decide, rfl, by decide⟩

/-- C6 witness: one share followed by a share with a different
identifier fails with `ShareSetInvalid`. -/
theorem combine_mismatch_witness :
    deserializeAll
      [0 :: 0 :: 0 :: 0 :: 0 :: List.replicate 16 3,
       0 :: 1 :: 0 :: 0 :: 1 :: List.replicate 16 3] =
      .ok [⟨0, 0, 1, 1, 0, 1, List.replicate 16 3⟩,
        ⟨1, 0, 1, 1, 1, 1, List.replicate 16 3⟩] ∧
    sskr_combine tagShamir
      [0 :: 0 :: 0 :: 0 :: 0 :: List.replicate 16 3,
       0 :: 1 :: 0 :: 0 :: 1 :: List.replicate 16 3] =
      .error .ShareSetInvalid :=
  ⟨rfl, combine_mismatch tagShamir
    [0 :: 0 :: 0 :: 0 :: 0 :: List.replicate 16 3,
     0 :: 1 :: 0 :: 0 :: 1 :: List.replicate 16 3]
    [⟨0, 0, 1, 1, 0, 1, List.replicate 16 3⟩,
     ⟨1, 0, 1, 1, 1, 1, List.replicate 16 3⟩]
    ⟨0, 0, 1, 1, 0, 1, List.replicate 16 3⟩ [] []
    ⟨1, 0, 1, 1, 1, 1, List.replicate 16 3⟩ rfl rfl
    (by decide) (by decide) (by decide) (by decide)⟩

/-- C5 (amended): supplying two shares with identical `groupIndex` and
`memberIndex` (and otherwise consistent metadata) fails with
`DuplicateMemberIndex` — provided the earlier of the two arrives while
its group's bucket still holds fewer than `memberThreshold` shares (in
particular whenever fewer than `memberThreshold` shares of that group
precede it); a duplicate whose first occurrence was itself silently
dropped from a full bucket goes undetected. -/
theorem combine_duplicate (prim : ShamirPrim) (inputs : List (List Nat))
    (shares : List SSKRShare) (p1 p2 rest : List SSKRShare)
    (si sj : SSKRShare)
    (hdes : deserializeAll inputs = .ok shares)
    (hshape : shares = p1 ++ si :: p2 ++ sj :: rest)
    (hmeta : ∀ s ∈ p1 ++ si :: p2 ++ [sj], ∀ t ∈ p1 ++ si :: p2 ++ [sj],
      shareMeta s = shareMeta t)
    (hmtc : ∀ s ∈ p1 ++ si :: p2 ++ [sj], ∀ t ∈ p1 ++ si :: p2 ++ [sj],
      s.group_index = t.group_index →
      s.member_threshold = t.member_threshold)
    (hkey : (keyList (p1 ++ si :: p2)).Nodup)
    (hjg : sj.group_index = si.group_index)
    (hjm : sj.member_index = si.member_index)
    (hcnt : (p1.filter fun s => s.group_index == si.group_index).length <
      si.member_threshold) :
    sskr_combine prim inputs = .error .DuplicateMemberIndex := by
  have hmemS : ∀ s ∈ p1 ++ si :: p2 ++ [sj], s ∈ shares := by
    intro s hs
    rw [hshape]
    rcases List.mem_append.mp hs with h | h
    · exact List.mem_append.mpr (Or.inl h)
    · simp only [List.mem_singleton] at h
      rw [h]
      exact List.mem_append.mpr (Or.inr (by simp))
  have hmtpos : ∀ s ∈ p1 ++ si :: p2 ++ [sj], 1 ≤ s.member_threshold := by
    intro s hs
    obtain ⟨src, _, hds⟩ := deserializeAll_mem hdes s (hmemS s hs)
    exact (deserialize_share_fields hds).1
  have hpremem : ∀ s ∈ p1 ++ si :: p2, s ∈ p1 ++ si :: p2 ++ [sj] :=
    fun s hs => List.mem_append.mpr (Or.inl hs)
  have hsimem : si ∈ p1 ++ si :: p2 := by simp
  have hsjmem : sj ∈ p1 ++ si :: p2 ++ [sj] :=
    List.mem_append.mpr (Or.inr (by simp))
  have hmtc_pre : ∀ s ∈ p1 ++ si :: p2, ∀ t ∈ p1 ++ si :: p2,
      s.group_index = t.group_index →
      s.member_threshold = t.member_threshold :=
    fun s hs t ht => hmtc s (hpremem s hs) t (hpremem t ht)
  have hmt : ∀ s ∈ p1 ++ si :: p2,
      s.member_threshold = lookupMT (p1 ++ si :: p2) s.group_index ∧
      1 ≤ lookupMT (p1 ++ si :: p2) s.group_index := by
    intro s hs
    rw [lookupMT_spec hmtc_pre hs]
    exact ⟨rfl, hmtpos s (hpremem s hs)⟩
  have hsimt : lookupMT (p1 ++ si :: p2) si.group_index =
      si.member_threshold := lookupMT_spec hmtc_pre hsimem
  have hjmt : sj.member_threshold =
      lookupMT (p1 ++ si :: p2) sj.group_index := by
    rw [hjg, hsimt]
    exact hmtc sj hsjmem si (hpremem si hsimem) (by rw [hjg])
  obtain ⟨s0, tl, hcons, hs0mem⟩ : ∃ s0 tl,
      (p1 ++ si :: p2 ++ sj :: rest = s0 :: tl) ∧
      s0 ∈ p1 ++ si :: p2 := by
    cases p1 with
    | nil => exact ⟨si, _, rfl, by simp⟩
    | cons h t => exact ⟨h, _, rfl, by simp⟩
  have hloopdup : combineLoop (shareMeta s0) []
      (p1 ++ si :: p2 ++ sj :: rest) = .error .DuplicateMemberIndex :=
    combineLoop_dup (lookupMT (p1 ++ si :: p2))
      (fun s hs => hmeta s (hpremem s hs) s0 (hpremem s0 hs0mem))
      (hmeta sj hsjmem s0 (hpremem s0 hs0mem)) hmt hkey hjg hjm hjmt
      (by rw [hsimt]; exact hcnt)
  rw [sskr_combine, hdes]
  show combine_shares prim shares = _
  rw [hshape, hcons]
  rw [hcons] at hloopdup
  simp only [combine_shares]
  rw [hloopdup]

/-- C5 counterexample: with a 1-member-threshold group, a share is
followed by two identical shares of the same group whose member index
duplicates nothing retained (the bucket was already full), so both are
silently ignored and combine succeeds instead of failing with
`DuplicateMemberIndex`. -/
theorem combine_duplicate_counterexample :
    deserializeAll
      [0 :: 0 :: 0 :: 0 :: 0 :: List.replicate 16 7,
       0 :: 0 :: 0 :: 0 :: 1 :: List.replicate 16 7,
       0 :: 0 :: 0 :: 0 :: 1 :: List.replicate 16 7] =
      .ok [⟨0, 0, 1, 1, 0, 1, List.replicate 16 7⟩,
        ⟨0, 0, 1, 1, 1, 1, List.replicate 16 7⟩,
        ⟨0, 0, 1, 1, 1, 1, List.replicate 16 7⟩] ∧
    (SSKRShare.mk 0 0 1 1 1 1 (List.replicate 16 7)).group_index =
      (SSKRShare.mk 0 0 1 1 1 1 (List.replicate 16 7)).group_index ∧
    (SSKRShare.mk 0 0 1 1 1 1 (List.replicate 16 7)).member_index =
      (SSKRShare.mk 0 0 1 1 1 1 (List.replicate 16 7)).member_index ∧
    sskr_combine tagShamir
      [0 :: 0 :: 0 :: 0 :: 0 :: List.replicate 16 7,
       0 :: 0 :: 0 :: 0 :: 1 :: List.replicate 16 7,
       0 :: 0 :: 0 :: 0 :: 1 :: List.replicate 16 7] =
      .ok (0 :: List.replicate 15 7) ∧
    (Except.ok (0 :: List.replicate 15 7) :
      Except SSKRError (List Nat)) ≠ .error .DuplicateMemberIndex :=
  ⟨by decide, rfl, rfl, by decide, by decide⟩

/-- C5 witness: two shares with identical (groupIndex, memberIndex),
the first retained by its (below-threshold) bucket: combine fails with
`DuplicateMemberIndex`. -/
theorem combine_duplicate_witness :
    deserializeAll
      [0 :: 0 :: 0 :: 1 :: 0 :: List.replicate 16 1,
       0 :: 0 :: 0 :: 1 :: 0 :: List.replicate 16 2] =
      .ok [⟨0, 0, 1, 1, 0, 2, List.replicate 16 1⟩,
        ⟨0, 0, 1, 1, 0, 2, List.replicate 16 2⟩] ∧
    sskr_combine tagShamir
      [0 :: 0 :: 0 :: 1 :: 0 :: List.replicate 16 1,
       0 :: 0 :: 0 :: 1 :: 0 :: List.replicate 16 2] =
      .error .DuplicateMemberIndex :=
  ⟨rfl, combine_duplicate tagShamir
    [0 :: 0 :: 0 :: 1 :: 0 :: List.replicate 16 1,
     0 :: 0 :: 0 :: 1 :: 0 :: List.replicate 16 2]
    [⟨0, 0, 1, 1, 0, 2, List.replicate 16 1⟩,
     ⟨0, 0, 1, 1, 0, 2, List.replicate 16 2⟩]
    [] [] [] ⟨0, 0, 1, 1, 0, 2, List.replicate 16 1⟩
    ⟨0, 0, 1, 1, 0, 2, List.replicate 16 2⟩ rfl rfl
    (by decide) (by decide) (by decide) (by decide) (by decide)
    (by decide)⟩

/-- C2: refuted — `combine_shares` feeds every bucket into group-secret
recovery and counts every distinct group toward the quorum, including
groups holding fewer shares than their member threshold.  Concretely: a
contract-satisfying primitive (`tagShamir`) and a 1-of-2 spec with two
2-of-3 groups exist for which generation succeeds, combining the two
shares of group 0 alone returns the correct secret, yet adding one
(under-threshold) share of group 1 makes combine return `Ok` of a
*different* value — the under-threshold bucket was interpolated from too
few points and corrupted the result, exactly the behavior the claim says
cannot happen. -/
theorem combine_under_threshold_bug :
    ShamirContract tagShamir ∧
    sskr_generate_using tagShamir ⟨1, [⟨2, 3⟩, ⟨2, 3⟩]⟩
      (List.replicate 16 0) (fun _ => 0) =
      .ok [[0 :: 0 :: 1 :: 1 :: 0 :: 19 :: List.replicate 15 0,
            0 :: 0 :: 1 :: 1 :: 1 :: 19 :: List.replicate 15 0,
            0 :: 0 :: 1 :: 1 :: 2 :: 19 :: List.replicate 15 0],
           [0 :: 0 :: 1 :: 17 :: 0 :: 19 :: List.replicate 15 0,
            0 :: 0 :: 1 :: 17 :: 1 :: 19 :: List.replicate 15 0,
            0 :: 0 :: 1 :: 17 :: 2 :: 19 :: List.replicate 15 0]] ∧
    sskr_combine tagShamir
      [0 :: 0 :: 1 :: 1 :: 0 :: 19 :: List.replicate 15 0,
       0 :: 0 :: 1 :: 1 :: 1 :: 19 :: List.replicate 15 0] =
      .ok (List.replicate 16 0) ∧
    sskr_combine tagShamir
      [0 :: 0 :: 1 :: 1 :: 0 :: 19 :: List.replicate 15 0,
       0 :: 0 :: 1 :: 1 :: 1 :: 19 :: List.replicate 15 0,
       0 :: 0 :: 1 :: 17 :: 0 :: 19 :: List.replicate 15 0] =
      .ok (1 :: List.replicate 15 0) ∧
    (1 :: List.replicate 15 0) ≠ List.replicate 16 (0 : Nat) :=
  ⟨tagShamir_contract, rfl, rfl, rfl, by decide⟩

end SSKR
